import Mathlib

/-!
Verification of the `grib` grid-engine against its specification.

The repository contains two divergent revisions of the engine:

* `grib/grib.py`        — a self-contained revision with single-cell objects
  (`Board`, `BoardObject`, `Empty`, `Wall`, `Player`, `Box`, the movement
  resolver with `OverwriteBehavior`, `_can_push_chain`, `_push_chain`,
  `can_move_to`, `move`);
* the `grib/core` package — a shape-based revision (`core/board.py` together
  with `core/board_object.py` and `core/shape.py`, the latter two present as
  the installed copies under `build/lib/grib/core/`), plus the generic
  `Grid.pathfind` A* search in `build/lib/grib/core/grid.py`.

We embed each revision shallowly.  Python lists are Lean lists; Python list
indexing (including its silent wrapping of negative indices and the
`IndexError` on too-large ones) is modelled by `pyIdx`/`pyGet`/`pySet`;
raised exceptions are modelled by `Option`/`Except` results.  Python object
identity is modelled by a numeric `id` field: distinct placed objects carry
distinct ids, every `Empty()` cell carries id 0 (the engine never asks an
`Empty` for its position, so sharing the id among empties is harmless and is
made explicit as a hypothesis wherever a proof needs identity scans).
-/

set_option maxHeartbeats 1000000
set_option maxRecDepth 10000

namespace Grib

/-- Resolve a Python list index of a list of length `n`: indices in `[0, n)`
are used as given, indices in `[-n, 0)` wrap around (Python semantics), and
anything else raises `IndexError` (here: `none`). -/
def pyIdx (n : Nat) (i : Int) : Option Nat :=
  if 0 ≤ i ∧ i < (n : Int) then some i.toNat
  else if -(n : Int) ≤ i ∧ i < 0 then some ((n : Int) + i).toNat
  else none

/-- Python `l[i]` for reading. -/
def pyGet {α : Type} (l : List α) (i : Int) : Option α :=
  match pyIdx l.length i with
  | some j => l.get? j
  | none => none

/-- Python `l[i] = a`. -/
def pySet {α : Type} (l : List α) (i : Int) (a : α) : Option (List α) :=
  match pyIdx l.length i with
  | some j => some (l.set j a)
  | none => none

/-- Coordinates are pairs of signed integers `(x, y)`. -/
abbrev Coord : Type := Int × Int

/-- `pos + direction` / tuple addition from `Direction.__add__`. -/
def cadd (p q : Coord) : Coord := (p.1 + q.1, p.2 + q.2)

/-- The offsets carried by the twelve `Direction` enum members (aliases
collapse to eight distinct values).  `Direction(value)` succeeds exactly on
these offsets and raises `ValueError` on anything else. -/
def dirOffsets : List Coord :=
  [(0, -1), (0, 1), (1, 0), (-1, 0), (1, -1), (-1, -1), (1, 1), (-1, 1)]

/-- Whether `Direction(off)` succeeds. -/
def isDirVal (off : Coord) : Bool := dirOffsets.contains off

/-- `OverwriteBehavior` from `grib/grib.py`. -/
inductive OverwriteBehavior : Type
  | SWAP
  | REPLACE
  | FAIL
  | PUSH
deriving DecidableEq

end Grib

namespace GribPy

open Grib

/-- The class of a `BoardObject` instance, as far as `isinstance` checks in
`grib/grib.py` need it. -/
inductive ObjClass : Type
  | empty
  | wall
  | player
  | box
deriving DecidableEq

/-- A `BoardObject` instance from `grib/grib.py`: an identity plus the three
capability flags set in `__init__`.  (`display_char` plays no role in the
movement resolver and is omitted.) -/
structure BoardObject : Type where
  id : Nat
  cls : ObjClass
  movable : Bool
  replaceable : Bool
  pushable : Bool
deriving DecidableEq

/-- `isinstance(o, Empty)`. -/
def BoardObject.isEmptyCell (o : BoardObject) : Bool := o.cls = ObjClass.empty

/-- `Empty()`: not movable, replaceable.  All empties share id 0. -/
def EmptyObj : BoardObject := ⟨0, ObjClass.empty, false, true, false⟩

/-- `Wall()`: not movable. -/
def WallObj (id : Nat) : BoardObject := ⟨id, ObjClass.wall, false, false, false⟩

/-- `Player()`: movable. -/
def PlayerObj (id : Nat) : BoardObject := ⟨id, ObjClass.player, true, false, false⟩

/-- `Box()`: movable and pushable. -/
def BoxObj (id : Nat) : BoardObject := ⟨id, ObjClass.box, true, false, true⟩

/-- The `Board` of `grib/grib.py`: a list of rows of occupant references,
row `y` holding the cells `(0, y) … (width-1, y)`. -/
structure Board : Type where
  board : List (List BoardObject)
deriving DecidableEq

/-- `width` property: `len(self.board[0])`. -/
def Board.width (b : Board) : Nat := (b.board.headD []).length

/-- `height` property: `len(self.board)`. -/
def Board.height (b : Board) : Nat := b.board.length

/-- `Board.in_bounds`. -/
def Board.inBounds (b : Board) (pos : Coord) : Bool :=
  if pos.1 < 0 ∨ pos.1 ≥ (b.width : Int) then false
  else if pos.2 < 0 ∨ pos.2 ≥ (b.height : Int) then false
  else true

/-- `Board.__getitem__`: checks `self.board[pos[1]]`, then returns
`self.board[pos[1]][pos[0]]`; an `IndexError` becomes `none`. -/
def Board.getItem (b : Board) (pos : Coord) : Option BoardObject :=
  match pyGet b.board pos.2 with
  | none => none
  | some row => pyGet row pos.1

/-- `Board.__setitem__` of `grib/grib.py`: two guarded checks of the row
`self.board[pos[1]]`, then the write `self.board[pos[1]][pos[0]] = value`
(whose column access is unguarded). -/
def Board.setItem (b : Board) (pos : Coord) (v : BoardObject) : Option Board :=
  match pyGet b.board pos.2 with
  | none => none
  | some row =>
    match pySet row pos.1 v with
    | none => none
    | some row' =>
      match pySet b.board pos.2 row' with
      | none => none
      | some rows => some ⟨rows⟩

/-- The inner loop of the `position` property: index of the first cell of a
row that `is self` (identity modelled by ids). -/
def rowScan (oid : Nat) : List BoardObject → Option Nat
  | [] => none
  | t :: ts => if t.id == oid then some 0 else (rowScan oid ts).map (· + 1)

/-- The scan inside the `position` property: iterate over rows (index `r`)
and cells (index `c`) and return `(c, r)` at the first cell that `is self`;
if the object is nowhere on the board the source returns `(-1, 1)` (sic). -/
def posScanAux (rows : List (List BoardObject)) (oid : Nat) (r : Nat) : Coord :=
  match rows with
  | [] => (-1, 1)
  | row :: rest =>
    match rowScan oid row with
    | some cIdx => ((cIdx : Int), (r : Int))
    | none => posScanAux rest oid (r + 1)

/-- `BoardObject.position` (computed by scanning the board for `self`). -/
def Board.positionOf (b : Board) (o : BoardObject) : Coord :=
  posScanAux b.board o.id 0

/-- `BoardObject._can_push_chain`, reindexed for structural recursion: the
source recurses with `chain_length + 1` and answers `False` once
`chain_length > 50`, so we recurse on the remaining budget
`fuel = 51 - chain_length` (see `canPushChain`). -/
def canPushChainAux (b : Board) (direction : Coord) : Nat → BoardObject → Bool
  | 0, _ => false
  | fuel + 1, x =>
    let pos := b.positionOf x
    let targetPos := cadd pos direction
    if ¬ b.inBounds targetPos then false
    else
      match b.getItem targetPos with
      | none => false
      | some targetObj =>
        if targetObj.isEmptyCell then true
        else if targetObj.pushable then canPushChainAux b direction fuel targetObj
        else if targetObj.replaceable then true
        else false

/-- `x._can_push_chain(direction, chain_length)`.  (The source's guards
`not self.position` and `not self.board` never fire: `position` is always a
two-tuple, hence truthy, and the board reference is set.) -/
def canPushChain (b : Board) (x : BoardObject) (direction : Coord)
    (chainLength : Nat) : Bool :=
  canPushChainAux b direction (51 - chainLength) x

/-- `BoardObject._push_chain`.  The source recursion is unbounded; the fuel
only models the depth actually needed (callers guard with
`_can_push_chain`, which bounds live chains, and `move` passes ample fuel).
Running out of fuel is reported as `none`, like a raised exception. -/
def pushChain (b : Board) (x : BoardObject) (direction : Coord) :
    Nat → Option (Bool × Board)
  | 0 => none
  | fuel + 1 =>
    let pos := b.positionOf x
    let targetPos := cadd pos direction
    match b.getItem targetPos with
    | none => none
    | some targetObj =>
      let inner : Option (Bool × Board) :=
        if targetObj.pushable then pushChain b targetObj direction fuel
        else some (true, b)
      match inner with
      | none => none
      | some (innerOk, b1) =>
        if targetObj.pushable ∧ innerOk = false then some (false, b1)
        else
          -- refresh in case the box in front has moved
          match b1.getItem targetPos with
          | none => none
          | some targetObj2 =>
            if targetObj2.isEmptyCell ∨ targetObj2.replaceable then
              -- `old_pos = self.position` is read before the writes, on `b1`
              match b1.setItem targetPos x with
              | none => none
              | some b2 =>
                match b2.setItem (b1.positionOf x) EmptyObj with
                | none => none
                | some b3 => some (true, b3)
            else some (false, b1)

/-- `BoardObject.can_move_to`.  `none` models the `ValueError` raised by
`Direction((dx, dy))` when `(dx, dy)` is not a direction value (which can
only happen here for `(0, 0)`, i.e. a pushable mover aimed at itself). -/
def canMoveTo (b : Board) (x : BoardObject) (newPos : Coord)
    (existing : OverwriteBehavior) : Option Bool :=
  if ¬ x.movable then some false
  else if ¬ b.inBounds newPos then some false
  else
    let pos := b.positionOf x
    let dx := newPos.1 - pos.1
    let dy := newPos.2 - pos.2
    match b.getItem newPos with
    | none => none
    | some targetObj =>
      if targetObj.isEmptyCell then some true
      else if targetObj.pushable ∧ dx.natAbs ≤ 1 ∧ dy.natAbs ≤ 1 then
        if isDirVal (dx, dy) then some (canPushChain b targetObj (dx, dy) 0)
        else none
      else
        match existing with
        | OverwriteBehavior.FAIL => some false
        | OverwriteBehavior.SWAP => some targetObj.movable
        | OverwriteBehavior.REPLACE => some targetObj.replaceable
        | OverwriteBehavior.PUSH => some false

/-- The tail of `BoardObject.move` after the push-handling block: the
`Empty` fast path, then the `match existing` cases, then `return False`. -/
def moveRest (b : Board) (x : BoardObject) (newPos : Coord)
    (targetObj : BoardObject) (existing : OverwriteBehavior) :
    Option (Bool × Board) :=
  if targetObj.isEmptyCell then
    -- `old_pos` is read before the writes, on `b`
    match b.setItem newPos x with
    | none => none
    | some b2 =>
      match b2.setItem (b.positionOf x) EmptyObj with
      | none => none
      | some b3 => some (true, b3)
  else
    match existing with
    | OverwriteBehavior.REPLACE =>
      if targetObj.replaceable then
        match b.setItem newPos x with
        | none => none
        | some b2 =>
          match b2.setItem (b.positionOf x) EmptyObj with
          | none => none
          | some b3 => some (true, b3)
      else some (false, b)
    | OverwriteBehavior.SWAP =>
      if targetObj.movable then
        -- tuple assignment: both right-hand cells are read first, then the
        -- targets are written left to right, and `self.position` in the
        -- second target is re-evaluated after the first write
        match b.getItem (b.positionOf x), b.getItem newPos with
        | some v1, some v2 =>
          match b.setItem newPos v1 with
          | none => none
          | some b2 =>
            match b2.setItem (b2.positionOf x) v2 with
            | none => none
            | some b3 => some (true, b3)
        | _, _ => none
      else some (false, b)
    | _ => some (false, b)

/-- `BoardObject.move` (relative move).  `none` models a raised exception
(`ValueError` from `Direction(new_pos)`, or an uncaught `IndexError`). -/
def move (b : Board) (x : BoardObject) (offset : Coord)
    (existing : OverwriteBehavior) : Option (Bool × Board) :=
  let selfPos := b.positionOf x
  let newPos := cadd selfPos offset
  match canMoveTo b x newPos existing with
  | none => none
  | some false => some (false, b)
  | some true =>
    if ¬ isDirVal offset then none
    else
      match b.getItem newPos with
      | none => none
      | some targetObj =>
        if targetObj.pushable then
          if canPushChain b targetObj offset 0 then
            match pushChain b targetObj offset (b.width * b.height + 1) with
            | none => none
            | some (_, b1) =>
              -- the push result is ignored by the source;
              -- `old_pos = self.position` is read on `b1` before the writes
              match b1.setItem newPos x with
              | none => none
              | some b2 =>
                match b2.setItem (b1.positionOf x) EmptyObj with
                | none => none
                | some b3 => some (true, b3)
          else moveRest b x newPos targetObj existing
        else moveRest b x newPos targetObj existing

end GribPy

namespace GribPy

open Grib

/-! ### Concrete boards for the specified scenarios -/

/-- A minimal corridor `Player | Box | Empty` (one row). -/
def tinyB : Board := ⟨[[PlayerObj 1, BoxObj 2, EmptyObj]]⟩

/-- The 5×5 board with a `Wall` border, a `Player` at `(1,2)` and a `Box`
at `(2,2)`. -/
def b6 : Board := ⟨[
  [WallObj 10, WallObj 11, WallObj 12, WallObj 13, WallObj 14],
  [WallObj 15, EmptyObj, EmptyObj, EmptyObj, WallObj 16],
  [WallObj 17, PlayerObj 1, BoxObj 2, EmptyObj, WallObj 18],
  [WallObj 19, EmptyObj, EmptyObj, EmptyObj, WallObj 20],
  [WallObj 21, WallObj 22, WallObj 23, WallObj 24, WallObj 25]]⟩

/-- `b6` after the push: Player at `(2,2)`, Box at `(3,2)`, `(1,2)` empty. -/
def b6after : Board := ⟨[
  [WallObj 10, WallObj 11, WallObj 12, WallObj 13, WallObj 14],
  [WallObj 15, EmptyObj, EmptyObj, EmptyObj, WallObj 16],
  [WallObj 17, EmptyObj, PlayerObj 1, BoxObj 2, WallObj 18],
  [WallObj 19, EmptyObj, EmptyObj, EmptyObj, WallObj 20],
  [WallObj 21, WallObj 22, WallObj 23, WallObj 24, WallObj 25]]⟩

/-- The blocked-chain board: Player at `(1,2)`, Boxes at `(2,2)` and
`(3,2)`, the border `Wall` at `(4,2)` behind them. -/
def b3 : Board := ⟨[
  [WallObj 10, WallObj 11, WallObj 12, WallObj 13, WallObj 14],
  [WallObj 15, EmptyObj, EmptyObj, EmptyObj, WallObj 16],
  [WallObj 17, PlayerObj 1, BoxObj 2, BoxObj 3, WallObj 18],
  [WallObj 19, EmptyObj, EmptyObj, EmptyObj, WallObj 20],
  [WallObj 21, WallObj 22, WallObj 23, WallObj 24, WallObj 25]]⟩

-- quick sanity checks (scenario computations)
example : move b6 (PlayerObj 1) (1, 0) OverwriteBehavior.PUSH = some (true, b6after) := by decide
example : move b3 (PlayerObj 1) (1, 0) OverwriteBehavior.PUSH = some (false, b3) := by decide

end GribPy

namespace GribPy

open Grib

/-! ### Board well-formedness (faithful object identity) -/

/-- `self.board[r][c]` with plain (non-negative, non-wrapping) indices. -/
def cellAt (b : Board) (r c : Nat) : Option BoardObject :=
  match b.board.get? r with
  | none => none
  | some row => row.get? c

/-- All cells of one row paired with their row/column indices. -/
def rowCellsAux (r : Nat) : Nat → List BoardObject → List (Nat × Nat × BoardObject)
  | _, [] => []
  | c, t :: ts => (r, c, t) :: rowCellsAux r (c + 1) ts

/-- All cells of a board paired with their row/column indices. -/
def cellsAux : Nat → List (List BoardObject) → List (Nat × Nat × BoardObject)
  | _, [] => []
  | r, row :: rest => rowCellsAux r 0 row ++ cellsAux (r + 1) rest

def cellsList (b : Board) : List (Nat × Nat × BoardObject) := cellsAux 0 b.board

/-- Ids of all non-`Empty` cells. -/
def occupantIds (b : Board) : List Nat :=
  (cellsList b).filterMap
    (fun e => if e.2.2.isEmptyCell then none else some e.2.2.id)

/-- Board states realisable by the Python program: rectangular rows, each
non-`Empty` cell holding a distinct object (distinct nonzero id — Python
object identity), empties sharing id 0. -/
def WF (b : Board) : Prop :=
  (∀ row ∈ b.board, row.length = b.width) ∧
  (∀ e ∈ cellsList b, e.2.2.isEmptyCell = false → e.2.2.id ≠ 0) ∧
  (∀ e ∈ cellsList b, e.2.2.isEmptyCell = true → e.2.2.id = 0) ∧
  (occupantIds b).Nodup

instance (b : Board) : Decidable (WF b) := by unfold WF; infer_instance

theorem mem_rowCellsAux {r : Nat} :
    ∀ (row : List BoardObject) (c0 c : Nat) (t : BoardObject),
      row.get? c = some t → (r, c0 + c, t) ∈ rowCellsAux r c0 row := by
  intro row
  induction row with
  | nil => intro c0 c t h; simp [List.get?] at h
  | cons x ts ih =>
    intro c0 c t h
    cases c with
    | zero =>
      simp only [List.get?] at h
      cases h
      simp [rowCellsAux]
    | succ c =>
      simp only [List.get?] at h
      have := ih (c0 + 1) c t h
      have hc : c0 + (c + 1) = (c0 + 1) + c := by omega
      rw [hc]
      exact List.mem_cons_of_mem _ this

theorem mem_cellsAux :
    ∀ (rows : List (List BoardObject)) (r0 r c : Nat) (row : List BoardObject)
      (t : BoardObject),
      rows.get? r = some row → row.get? c = some t →
      (r0 + r, c, t) ∈ cellsAux r0 rows := by
  intro rows
  induction rows with
  | nil => intro r0 r c row t h; simp [List.get?] at h
  | cons hd rest ih =>
    intro r0 r c row t hrow hc
    cases r with
    | zero =>
      simp only [List.get?] at hrow
      cases hrow
      have := mem_rowCellsAux (r := r0) hd 0 c t hc
      simpa [cellsAux] using Or.inl this
    | succ r =>
      simp only [List.get?] at hrow
      have := ih (r0 + 1) r c row t hrow hc
      have hr : r0 + (r + 1) = (r0 + 1) + r := by omega
      rw [hr]
      simp only [cellsAux, List.mem_append]
      exact Or.inr this

theorem cellAt_mem {b : Board} {r c : Nat} {t : BoardObject}
    (h : cellAt b r c = some t) : (r, c, t) ∈ cellsList b := by
  unfold cellAt at h
  cases hrow : b.board.get? r with
  | none => rw [hrow] at h; exact absurd h (by simp)
  | some row =>
    rw [hrow] at h
    simpa using mem_cellsAux b.board 0 r c row t hrow h

/-- If the filtered projections of a list are `Nodup`, the projection is
injective on the members it keeps. -/
theorem nodup_filterMap_inj {α β : Type} (f : α → Option β) :
    ∀ (l : List α), (l.filterMap f).Nodup →
      ∀ e ∈ l, ∀ e' ∈ l, ∀ v, f e = some v → f e' = some v → e = e' := by
  intro l
  induction l with
  | nil => intro _ e he; simp at he
  | cons a tl ih =>
    intro hnd e he e' he' v hv hv'
    have htl : (tl.filterMap f).Nodup := by
      rcases hfa : f a with _ | w
      · simpa [List.filterMap_cons, hfa] using hnd
      · have h2 := hnd
        rw [List.filterMap_cons, hfa] at h2
        exact h2.of_cons
    rcases List.mem_cons.mp he with h1 | h1
    · rcases List.mem_cons.mp he' with h2 | h2
      · rw [h1, h2]
      · exfalso
        have hmem : v ∈ tl.filterMap f := List.mem_filterMap.mpr ⟨e', h2, hv'⟩
        have hnot : v ∉ tl.filterMap f := by
          have h3 := hnd
          rw [h1] at hv
          rw [List.filterMap_cons, hv] at h3
          exact (List.nodup_cons.mp h3).1
        exact hnot hmem
    · rcases List.mem_cons.mp he' with h2 | h2
      · exfalso
        have hmem : v ∈ tl.filterMap f := List.mem_filterMap.mpr ⟨e, h1, hv⟩
        have hnot : v ∉ tl.filterMap f := by
          have h3 := hnd
          rw [h2] at hv'
          rw [List.filterMap_cons, hv'] at h3
          exact (List.nodup_cons.mp h3).1
        exact hnot hmem
      · exact ih htl e h1 e' h2 v hv hv'

theorem wf_id_nz {b : Board} {r c : Nat} {t : BoardObject} (hwf : WF b)
    (h : cellAt b r c = some t) (ht : t.isEmptyCell = false) : t.id ≠ 0 :=
  hwf.2.1 _ (cellAt_mem h) ht

theorem wf_id_inj {b : Board} {r c r' c' : Nat} {t t' : BoardObject} (hwf : WF b)
    (h : cellAt b r c = some t) (h' : cellAt b r' c' = some t')
    (ht : t.isEmptyCell = false) (ht' : t'.isEmptyCell = false)
    (hid : t.id = t'.id) : r = r' ∧ c = c' ∧ t = t' := by
  have heq := nodup_filterMap_inj
    (fun e : Nat × Nat × BoardObject =>
      if e.2.2.isEmptyCell then none else some e.2.2.id)
    (cellsList b) hwf.2.2.2 (r, c, t) (cellAt_mem h) (r', c', t') (cellAt_mem h')
    t.id (by simp [ht]) (by simp [ht', hid])
  have h1 : r = r' := congrArg Prod.fst heq
  have h2 : c = c' := congrArg (fun e => e.2.1) heq
  have h3 : t = t' := congrArg (fun e => e.2.2) heq
  exact ⟨h1, h2, h3⟩

theorem rowScan_eq_some {oid : Nat} :
    ∀ (row : List BoardObject) (c : Nat) (t : BoardObject),
      row.get? c = some t → t.id = oid →
      (∀ j x, j < c → row.get? j = some x → x.id ≠ oid) →
      rowScan oid row = some c := by
  intro row
  induction row with
  | nil => intro c t h; simp [List.get?] at h
  | cons x ts ih =>
    intro c t hc hid hbefore
    cases c with
    | zero =>
      simp only [List.get?] at hc
      cases hc
      simp [rowScan, hid]
    | succ c =>
      have hx : x.id ≠ oid := hbefore 0 x (Nat.succ_pos c) rfl
      simp only [List.get?] at hc
      have hts : rowScan oid ts = some c :=
        ih c t hc hid (fun j y hj hy => hbefore (j + 1) y (by omega) hy)
      simp [rowScan, hx, hts]

theorem rowScan_eq_none {oid : Nat} :
    ∀ (row : List BoardObject), (∀ x ∈ row, x.id ≠ oid) →
      rowScan oid row = none := by
  intro row
  induction row with
  | nil => intro _; rfl
  | cons x ts ih =>
    intro h
    have hx : x.id ≠ oid := h x (List.mem_cons_self x ts)
    have hts := ih (fun y hy => h y (List.mem_cons_of_mem x hy))
    simp [rowScan, hx, hts]

theorem posScanAux_found {oid : Nat} :
    ∀ (rows : List (List BoardObject)) (r0 r c : Nat)
      (row : List BoardObject) (t : BoardObject),
      rows.get? r = some row → row.get? c = some t → t.id = oid →
      (∀ r' row', r' < r → rows.get? r' = some row' → ∀ x ∈ row', x.id ≠ oid) →
      (∀ j x, j < c → row.get? j = some x → x.id ≠ oid) →
      posScanAux rows oid r0 = ((c : Int), ((r0 + r : Nat) : Int)) := by
  intro rows
  induction rows with
  | nil => intro r0 r c row t h; simp [List.get?] at h
  | cons hd rest ih =>
    intro r0 r c row t hrow hc hid hrows hcols
    cases r with
    | zero =>
      simp only [List.get?] at hrow
      cases hrow
      have := rowScan_eq_some hd c t hc hid hcols
      simp [posScanAux, this]
    | succ r =>
      simp only [List.get?] at hrow
      have hhd : rowScan oid hd = none :=
        rowScan_eq_none hd (hrows 0 hd (Nat.succ_pos r) rfl)
      have hrec := ih (r0 + 1) r c row t hrow hc hid
        (fun r' row' hr' h' => hrows (r' + 1) row' (by omega) h') hcols
      have harith : r0 + 1 + r = r0 + (r + 1) := by omega
      rw [harith] at hrec
      simp [posScanAux, hhd, hrec]

/-- Under `WF`, the identity scan of a non-`Empty` occupant at `(r, c)`
returns exactly `(c, r)`. -/
theorem positionOf_eq {b : Board} {r c : Nat} {t : BoardObject} (hwf : WF b)
    (h : cellAt b r c = some t) (ht : t.isEmptyCell = false) :
    b.positionOf t = ((c : Int), (r : Int)) := by
  have hrow : ∃ row, b.board.get? r = some row ∧ row.get? c = some t := by
    unfold cellAt at h
    cases hr : b.board.get? r with
    | none => rw [hr] at h; exact absurd h (by simp)
    | some row => rw [hr] at h; exact ⟨row, rfl, h⟩
  obtain ⟨row, hr, hc⟩ := hrow
  have hnz := wf_id_nz hwf h ht
  have hmain := posScanAux_found b.board 0 r c row t hr hc rfl
    (fun r' row' hr' hrow' x hx => by
      intro hxid
      obtain ⟨j, hj⟩ := List.get?_of_mem hx
      have hcell : cellAt b r' j = some x := by unfold cellAt; rw [hrow']; exact hj
      by_cases hxe : x.isEmptyCell = true
      · -- an empty cell: its id is 0, but `t.id ≠ 0`
        have hx0 : x.id = 0 := hwf.2.2.1 _ (cellAt_mem hcell) hxe
        exact hnz (by omega)
      · have := wf_id_inj hwf hcell h (by simpa using hxe) ht hxid
        omega)
    (fun j x hj hx => by
      intro hxid
      have hcell : cellAt b r j = some x := by unfold cellAt; rw [hr]; exact hx
      by_cases hxe : x.isEmptyCell = true
      · have hx0 : x.id = 0 := hwf.2.2.1 _ (cellAt_mem hcell) hxe
        exact hnz (by omega)
      · have := wf_id_inj hwf hcell h (by simpa using hxe) ht hxid
        omega)
  simpa using hmain

/-- On a rectangular board an in-bounds `__getitem__` is a plain cell
lookup (no wrapping, no failure path). -/
theorem getItem_inBounds {b : Board} {p : Coord}
    (hrect : ∀ row ∈ b.board, row.length = b.width)
    (hb : b.inBounds p = true) :
    ∃ r c : Nat, p = ((c : Int), (r : Int)) ∧ b.getItem p = cellAt b r c := by
  have hx : 0 ≤ p.1 ∧ p.1 < (b.width : Int) := by
    unfold Board.inBounds at hb
    by_cases h1 : p.1 < 0 ∨ p.1 ≥ (b.width : Int)
    · simp [h1] at hb
    · push_neg at h1; exact ⟨h1.1, h1.2⟩
  have hy : 0 ≤ p.2 ∧ p.2 < (b.height : Int) := by
    unfold Board.inBounds at hb
    by_cases h1 : p.1 < 0 ∨ p.1 ≥ (b.width : Int)
    · simp [h1] at hb
    · by_cases h2 : p.2 < 0 ∨ p.2 ≥ (b.height : Int)
      · simp [h1, h2] at hb
      · push_neg at h2; exact ⟨h2.1, h2.2⟩
  refine ⟨p.2.toNat, p.1.toNat, ?_, ?_⟩
  · have e1 : ((p.1.toNat : Int)) = p.1 := Int.toNat_of_nonneg hx.1
    have e2 : ((p.2.toNat : Int)) = p.2 := Int.toNat_of_nonneg hy.1
    exact Prod.ext e1.symm e2.symm
  · have hidx : pyIdx b.board.length p.2 = some p.2.toNat := by
      unfold pyIdx
      have : 0 ≤ p.2 ∧ p.2 < (b.board.length : Int) := ⟨hy.1, hy.2⟩
      simp [this]
    have hrlt : p.2.toNat < b.board.length := by
      have := hy.2
      unfold Board.height at this
      omega
    cases hrow : b.board.get? p.2.toNat with
    | none =>
      exfalso
      rw [List.get?_eq_none] at hrow
      omega
    | some row =>
      have hrw : row.length = b.width := hrect row (List.get?_mem hrow)
      have hidx2 : pyIdx row.length p.1 = some p.1.toNat := by
        unfold pyIdx
        have : 0 ≤ p.1 ∧ p.1 < (row.length : Int) := by
          constructor
          · exact hx.1
          · rw [hrw]; exact hx.2
        simp [this]
      unfold Board.getItem cellAt pyGet
      simp only [hidx, hrow, hidx2]

/-! ### C2: the push-legality rules from the specification -/

/-- Modelled from the specification's rule list for `can_push_chain`, stated
over the occupant's position (reindexed for structural recursion exactly as
`canPushChainAux`): chains longer than 50 links are illegal; an
out-of-bounds further cell is illegal; `Empty` is legal; a pushable occupant
defers to the recursive check one step further with depth + 1; a replaceable
(non-pushable) occupant is legal; everything else is illegal. -/
def pushRulesAux (b : Board) (direction : Coord) : Nat → Coord → Bool
  | 0, _ => false
  | fuel + 1, pos =>
    let further := cadd pos direction
    if ¬ b.inBounds further then false
    else
      match b.getItem further with
      | none => false
      | some t =>
        if t.isEmptyCell then true
        else if t.pushable then pushRulesAux b direction fuel further
        else if t.replaceable then true
        else false

/-- The specification's push-legality predicate at a given position/depth. -/
def canPushChainRules (b : Board) (pos : Coord) (direction : Coord)
    (depth : Nat) : Bool :=
  pushRulesAux b direction (51 - depth) pos

theorem canPushChainAux_eq_rules {b : Board} (hwf : WF b) (direction : Coord) :
    ∀ (fuel : Nat) (x : BoardObject) (r c : Nat),
      cellAt b r c = some x → x.isEmptyCell = false →
      canPushChainAux b direction fuel x
        = pushRulesAux b direction fuel ((c : Int), (r : Int)) := by
  intro fuel
  induction fuel with
  | zero => intro x r c _ _; rfl
  | succ fuel ih =>
    intro x r c hcell hx
    have hpos : b.positionOf x = ((c : Int), (r : Int)) := positionOf_eq hwf hcell hx
    show (if ¬ b.inBounds (cadd (b.positionOf x) direction) then false
      else match b.getItem (cadd (b.positionOf x) direction) with
        | none => false
        | some targetObj =>
          if targetObj.isEmptyCell then true
          else if targetObj.pushable then canPushChainAux b direction fuel targetObj
          else if targetObj.replaceable then true
          else false)
      = pushRulesAux b direction (fuel + 1) ((c : Int), (r : Int))
    rw [hpos]
    show _ = (if ¬ b.inBounds (cadd ((c : Int), (r : Int)) direction) then false
      else match b.getItem (cadd ((c : Int), (r : Int)) direction) with
        | none => false
        | some t =>
          if t.isEmptyCell then true
          else if t.pushable then pushRulesAux b direction fuel (cadd ((c : Int), (r : Int)) direction)
          else if t.replaceable then true
          else false)
    by_cases hb : b.inBounds (cadd ((c : Int), (r : Int)) direction) = true
    · simp only [hb, not_true, if_false, ite_false]
      obtain ⟨r2, c2, hp2, hget⟩ := getItem_inBounds hwf.1 hb
      cases hcell2 : b.getItem (cadd ((c : Int), (r : Int)) direction) with
      | none => rfl
      | some tgt =>
        by_cases he : tgt.isEmptyCell = true
        · simp [he]
        · have hne : tgt.isEmptyCell = false := by simpa using he
          by_cases hpu : tgt.pushable = true
          · have hc2 : cellAt b r2 c2 = some tgt := by rw [← hget, hcell2]
            have := ih tgt r2 c2 hc2 hne
            simp only [hne, hpu, if_true, if_false, Bool.false_eq_true]
            rw [hp2]
            simpa using this
          · simp [hne, hpu]
    · have hb' : b.inBounds (cadd ((c : Int), (r : Int)) direction) = false := by
        simpa using hb
      simp [hb']

/-- C2 — `_can_push_chain` decides push legality exactly by the
specification's rules, stated at the occupant's board position. -/
theorem claim_C2 (b : Board) (x : BoardObject) (r c : Nat) (direction : Coord)
    (depth : Nat) (hwf : WF b) (hcell : cellAt b r c = some x)
    (hx : x.isEmptyCell = false) :
    canPushChain b x direction depth
      = canPushChainRules b ((c : Int), (r : Int)) direction depth :=
  canPushChainAux_eq_rules hwf direction (51 - depth) x r c hcell hx

/-- Witness: the rules agree with the code on the corridor board. -/
theorem claim_C2_witness :
    WF tinyB ∧ cellAt tinyB 0 1 = some (BoxObj 2) ∧
      canPushChain tinyB (BoxObj 2) (1, 0) 0
        = canPushChainRules tinyB (1, 0) (1, 0) 0 :=
  ⟨by decide, by decide,
    claim_C2 tinyB (BoxObj 2) 0 1 (1, 0) 0 (by decide) (by decide) (by decide)⟩

/-! ### C3: failed moves never mutate the board -/

theorem moveRest_false {b : Board} {x : BoardObject} {newPos : Coord}
    {targetObj : BoardObject} {existing : OverwriteBehavior} {b' : Board}
    (h : moveRest b x newPos targetObj existing = some (false, b')) :
    b' = b := by
  unfold moveRest at h
  repeat' split at h
  all_goals simp_all

theorem move_false {b : Board} {x : BoardObject} {offset : Coord}
    {existing : OverwriteBehavior} {b' : Board}
    (h : move b x offset existing = some (false, b')) : b' = b := by
  simp only [move] at h
  repeat' split at h
  all_goals first
    | (exact moveRest_false h)
    | simp_all

/-- C3 — a movement operation that reports failure leaves the board
untouched; in particular pushing East into the blocked two-box chain fails
and moves nothing. -/
theorem claim_C3 :
    (∀ (b : Board) (x : BoardObject) (offset : Coord)
        (existing : OverwriteBehavior) (b' : Board),
      move b x offset existing = some (false, b') → b' = b) ∧
    move b3 (PlayerObj 1) (1, 0) OverwriteBehavior.PUSH = some (false, b3) :=
  ⟨fun _ _ _ _ _ h => move_false h, by decide⟩

/-- Witness: the no-mutation theorem applied to the blocked-chain board. -/
theorem claim_C3_witness :
    (move b3 (PlayerObj 1) (1, 0) OverwriteBehavior.PUSH = some (false, b3)) ∧
      b3 = b3 :=
  ⟨by decide,
    claim_C3.1 b3 (PlayerObj 1) (1, 0) OverwriteBehavior.PUSH b3 (by decide)⟩

/-! ### C5: the Fail policy -/

/-- Counterexample to C5 as stated: under the default `Fail` policy an
adjacent pushable occupant does **not** block — `can_move_to` answers the
push-chain test and `move` pushes the box. -/
theorem claim_C5_counterexample :
    canMoveTo tinyB (PlayerObj 1) (1, 0) OverwriteBehavior.FAIL = some true ∧
      move tinyB (PlayerObj 1) (1, 0) OverwriteBehavior.FAIL
        = some (true, ⟨[[EmptyObj, PlayerObj 1, BoxObj 2]]⟩) := by
  constructor
  · decide
  · decide

/-- C5 (amended) — under `Fail`, a non-`Empty` target occupant that is not
an adjacent pushable blocks the move: `can_move_to` answers `false` and the
corresponding relative `move` is a reported no-op. -/
theorem claim_C5 (b : Board) (x : BoardObject) (p : Coord) (t : BoardObject)
    (hget : b.getItem p = some t) (hne : t.isEmptyCell = false)
    (hnp : ¬ (t.pushable = true ∧ (p.1 - (b.positionOf x).1).natAbs ≤ 1 ∧
      (p.2 - (b.positionOf x).2).natAbs ≤ 1)) :
    canMoveTo b x p OverwriteBehavior.FAIL = some false ∧
      ∀ offset, cadd (b.positionOf x) offset = p →
        move b x offset OverwriteBehavior.FAIL = some (false, b) := by
  have hcm : canMoveTo b x p OverwriteBehavior.FAIL = some false := by
    unfold canMoveTo
    by_cases hm : x.movable = true
    · by_cases hb : b.inBounds p = true
      · simp only [hm, hb, hget, hne]
        simp [hnp]
      · have hbf : b.inBounds p = false := by simpa using hb
        simp [hm, hbf]
    · have hmf : x.movable = false := by simpa using hm
      simp [hmf]
  refine ⟨hcm, fun offset hoff => ?_⟩
  have hcm2 : canMoveTo b x (cadd (b.positionOf x) offset) OverwriteBehavior.FAIL
      = some false := by rw [hoff]; exact hcm
  simp only [move, hcm2]

/-- Witness for the amended C5: a wall next to the player blocks under
`Fail`. -/
theorem claim_C5_witness :
    canMoveTo (Board.mk [[PlayerObj 1, WallObj 2]]) (PlayerObj 1) (1, 0)
        OverwriteBehavior.FAIL = some false ∧
      move (Board.mk [[PlayerObj 1, WallObj 2]]) (PlayerObj 1) (1, 0)
        OverwriteBehavior.FAIL = some (false, Board.mk [[PlayerObj 1, WallObj 2]]) :=
  ⟨(claim_C5 (Board.mk [[PlayerObj 1, WallObj 2]]) (PlayerObj 1) (1, 0)
      (WallObj 2) (by decide) (by decide) (by decide)).1,
   (claim_C5 (Board.mk [[PlayerObj 1, WallObj 2]]) (PlayerObj 1) (1, 0)
      (WallObj 2) (by decide) (by decide) (by decide)).2 (1, 0) (by decide)⟩

/-! ### C6: the successful push scenario -/

/-- C6 — on the 5×5 walled board, `move(Player, East, Push)` succeeds and
leaves the Player at `(2,2)`, the Box at `(3,2)` and `(1,2)` empty. -/
theorem claim_C6 :
    move b6 (PlayerObj 1) (1, 0) OverwriteBehavior.PUSH = some (true, b6after) ∧
      b6after.getItem (2, 2) = some (PlayerObj 1) ∧
      b6after.getItem (3, 2) = some (BoxObj 2) ∧
      b6after.getItem (1, 2) = some EmptyObj := by
  refine ⟨by decide, by decide, by decide, by decide⟩

end GribPy

namespace GribCore

open Grib

/-!
### The `grib/core` revision: shapes, the core `Board`, text import/export

`core/board.py` works with the shape-bearing `BoardObject` of
`core/board_object.py` (present as its installed copy under
`build/lib/grib/core/board_object.py`) and `core/shape.py`.
-/

/-- `Shape`: a rectangular grid of display glyphs. -/
structure Shape : Type where
  pattern : List (List String)
deriving DecidableEq

def Shape.height (s : Shape) : Nat := s.pattern.length

def Shape.width (s : Shape) : Nat := (s.pattern.headD []).length

/-- `Shape.get_occupied_positions(anchor)`: row-major absolute footprint. -/
def Shape.getOccupiedPositions (s : Shape) (anchor : Coord) : List Coord :=
  (List.range s.height).flatMap fun dy =>
    (List.range s.width).map fun dx =>
      (anchor.1 + (dx : Int), anchor.2 + (dy : Int))

/-- Classes of the core `BoardObject` hierarchy. -/
inductive CClass : Type
  | empty
  | wall
  | symbol
  | player
  | box
  | bigBox
deriving DecidableEq

/-- A core `BoardObject` instance: identity, class, shape, capability flags
and the *stored* `position` attribute (initialised to `(-1, -1)`). -/
structure CObj : Type where
  id : Nat
  cls : CClass
  shape : Shape
  movable : Bool
  replaceable : Bool
  pushable : Bool
  position : Coord
deriving DecidableEq

/-- `display_char` property: the glyph at the shape's top-left cell. -/
def CObj.displayChar (o : CObj) : String := (o.shape.pattern.headD []).headD ""

/-- `is_single_celled` property. -/
def CObj.isSingleCelled (o : CObj) : Bool :=
  o.shape.width == 1 && o.shape.height == 1

/-- `isinstance(o, Empty)`. -/
def CObj.isEmptyCls (o : CObj) : Bool := o.cls == CClass.empty

/-- `Empty()`: its shape string is `"[]"`, so its display char is `"[]"`. -/
def CEmpty : CObj :=
  ⟨0, CClass.empty, ⟨[["[]"]]⟩, false, true, false, (-1, -1)⟩

/-- `Wall()`. -/
def CWall (id : Nat) : CObj :=
  ⟨id, CClass.wall, ⟨[["#"]]⟩, false, false, false, (-1, -1)⟩

/-- `Symbol(char)`; the class default is `"C"`. -/
def CSymbol (id : Nat) (char : String) : CObj :=
  ⟨id, CClass.symbol, ⟨[[char]]⟩, false, false, false, (-1, -1)⟩

/-- `Player()`. -/
def CPlayer (id : Nat) : CObj :=
  ⟨id, CClass.player, ⟨[["@"]]⟩, true, false, false, (-1, -1)⟩

/-- `Box()`. -/
def CBox (id : Nat) : CObj :=
  ⟨id, CClass.box, ⟨[["O"]]⟩, true, false, true, (-1, -1)⟩

/-- `BigBox()`: the 3×3 frame shape. -/
def CBigBox (id : Nat) : CObj :=
  ⟨id, CClass.bigBox,
    ⟨[["+", "-", "+"], ["|", " ", "|"], ["+", "-", "+"]]⟩,
    true, false, false, (-1, -1)⟩

/-- The `Board` of `core/board.py`. -/
structure CBoard : Type where
  rows : List (List CObj)
deriving DecidableEq

def CBoard.width (b : CBoard) : Nat := (b.rows.headD []).length

def CBoard.height (b : CBoard) : Nat := b.rows.length

/-- `Board.in_bounds`. -/
def CBoard.inBounds (b : CBoard) (pos : Coord) : Bool :=
  if pos.1 < 0 ∨ pos.1 ≥ (b.width : Int) then false
  else if pos.2 < 0 ∨ pos.2 ≥ (b.height : Int) then false
  else true

/-- `Board.__getitem__`: checks `self.board[pos[1]]`, then returns
`self.board[pos[1]][pos[0]]`. -/
def CBoard.getItem (b : CBoard) (pos : Coord) : Option CObj :=
  match pyGet b.rows pos.2 with
  | none => none
  | some row => pyGet row pos.1

/-- `Board.__setitem__` of `core/board.py`: refuses multi-cell occupants
(prints a warning and returns), performs the two guarded checks of the row
`self.board[pos[1]]`, then executes the write
`self.board[pos[0]][pos[1]] = value` — note the transposed indices relative
to `__getitem__`. -/
def CBoard.setItem (b : CBoard) (pos : Coord) (v : CObj) : Option CBoard :=
  if ¬ v.isSingleCelled then some b
  else
    match pyGet b.rows pos.2 with
    | none => none
    | some _ =>
      match pyGet b.rows pos.1 with
      | none => none
      | some row =>
        match pySet row pos.2 v with
        | none => none
        | some row' =>
          match pySet b.rows pos.1 row' with
          | none => none
          | some rows => some ⟨rows⟩

/-- The blocking loop of `place_object`: `False` at the first target cell
not occupied by `Empty` (reads go through `__getitem__`; the 4-tuple
`p + obj.position` indexes like `p` itself, since only `pos[0]` and
`pos[1]` are used). -/
def allEmptyCheck (b : CBoard) : List Coord → Option Bool
  | [] => some true
  | p :: rest =>
    match b.getItem p with
    | none => none
    | some t => if t.isEmptyCls then allEmptyCheck b rest else some false

/-- The write loop of `place_object` (each write goes through the
transposed `__setitem__`). -/
def writeAll (o : CObj) : CBoard → List Coord → Option CBoard
  | b, [] => some b
  | b, p :: rest =>
    match b.setItem p o with
    | none => none
    | some b2 => writeAll o b2 rest

/-- `Board.place_object(obj, pos)`.  The Python return value is `None` on
the out-of-bounds path *and* on the success path, `False` when blocked
(modelled as `Option Bool`); the outer `Option` is a raised exception.
Because the written object is mutated afterwards (`obj.position = pos`) and
the cells hold references to it, the cells are modelled as holding the
object with its final position. -/
def CBoard.placeObject (b : CBoard) (obj : CObj) (pos : Coord) :
    Option (Option Bool × CBoard × CObj) :=
  let positions := obj.shape.getOccupiedPositions pos
  if ¬ positions.all (fun p => b.inBounds p) then some (none, b, obj)
  else
    match allEmptyCheck b positions with
    | none => none
    | some false => some (some false, b, obj)
    | some true =>
      match writeAll { obj with position := pos } b positions with
      | none => none
      | some b' => some (none, b', { obj with position := pos })

/-- `Board.save_state`: the matrix of display glyphs (a list of rows of
strings, not a text). -/
def saveState (b : CBoard) : List (List String) :=
  b.rows.map (fun row => row.map (fun o => o.displayChar))

/-- Errors raised by `Board.get_object_for_char`. -/
inductive LoadErr : Type
  | ambiguousChar (c : Char)
  | unknownChar (c : Char)
deriving DecidableEq

/-- `Board.get_object_for_char`: the registered classes whose default
instance displays exactly this character; ambiguous or unknown glyphs raise
`ValueError`. -/
def getObjectForChar (registry : List CObj) (c : Char) : Except LoadErr CObj :=
  match registry.filter (fun proto => proto.displayChar == String.singleton c) with
  | [] => Except.error (LoadErr.unknownChar c)
  | [proto] => Except.ok proto
  | _ => Except.error (LoadErr.ambiguousChar c)

/-- `Board.load_state(text)`: split on newlines and map every character
through the registry (fresh instances share the class defaults of their
prototypes; identity is irrelevant here, so the prototype value is used). -/
def loadState (registry : List CObj) (text : List Char) : Except LoadErr CBoard := do
  let rows ← (text.splitOn '\n').mapM
    (fun line => line.mapM (fun c => getObjectForChar registry c))
  return ⟨rows⟩

/-- The classes registered by importing `core/board_object.py`, in
definition order, with their default display glyphs. -/
def coreRegistry : List CObj :=
  [CEmpty, CWall 0, CSymbol 0 "C", CPlayer 0, CBox 0, CBigBox 0]

/-- Cells of one row whose occupant has the given id, with coordinates. -/
def rowRefAux (oid r : Nat) : Nat → List CObj → List Coord
  | _, [] => []
  | c, t :: ts =>
    (if t.id == oid then [((c : Int), (r : Int))] else []) ++
      rowRefAux oid r (c + 1) ts

/-- All board cells referencing the object with the given id. -/
def cellsRefAux (oid : Nat) : Nat → List (List CObj) → List Coord
  | _, [] => []
  | r, row :: rest => rowRefAux oid r 0 row ++ cellsRefAux oid (r + 1) rest

def CBoard.cellsReferencing (b : CBoard) (oid : Nat) : List Coord :=
  cellsRefAux oid 0 b.rows

/-! ### C1 / C4 / C10: the transposed indexed write -/

/-- A 2×2 all-empty board. -/
def cb2 : CBoard := ⟨[[CEmpty, CEmpty], [CEmpty, CEmpty]]⟩

/-- `cb2` after `cb2[1, 0] = Wall`: the write lands in `board[1][0]`,
i.e. at the cell `(0, 1)` in the getter's convention. -/
def cb2w : CBoard := ⟨[[CEmpty, CEmpty], [CWall 1, CEmpty]]⟩

/-- C10 — `set` then `get` at `(1, 0)` does **not** round-trip: the setter
writes `board[pos[0]][pos[1]]` while the getter reads
`board[pos[1]][pos[0]]`, so the value lands at the transposed cell. -/
theorem claim_C10 :
    cb2.setItem (1, 0) (CWall 1) = some cb2w ∧
      cb2w.getItem (1, 0) = some CEmpty ∧
      cb2w.getItem (0, 1) = some (CWall 1) := by
  refine ⟨by decide, by decide, by decide⟩

/-- The player object after `place_object(player, (1, 0))` set its
position. -/
def placedPlayer : CObj := { CPlayer 1 with position := (1, 0) }

/-- The board produced by `cb2.place_object(player, (1, 0))`. -/
def cb1after : CBoard := ⟨[[CEmpty, CEmpty], [placedPlayer, CEmpty]]⟩

/-- C1 — `place_object` at `(1, 0)` "succeeds" (returns `None`) and sets
`obj.position = (1, 0)`, but the occupied cell `(1, 0)` still reads
`Empty`: the write went to the transposed cell `(0, 1)`. -/
theorem claim_C1 :
    cb2.placeObject (CPlayer 1) (1, 0) = some (none, cb1after, placedPlayer) ∧
      placedPlayer.position = (1, 0) ∧
      (CPlayer 1).shape.getOccupiedPositions (1, 0) = [(1, 0)] ∧
      cb1after.getItem (1, 0) = some CEmpty ∧
      cb1after.getItem (0, 1) = some placedPlayer := by
  refine ⟨by decide, by decide, by decide, by decide, by decide⟩

/-- C4 — after the placement the set of cells referencing the occupant is
`{(0, 1)}` while `occupied_positions(position)` is `{(1, 0)}`: the
single-ownership/footprint invariant is broken by `place`/`set`. -/
theorem claim_C4 :
    cb1after.cellsReferencing 1 = [(0, 1)] ∧
      placedPlayer.shape.getOccupiedPositions placedPlayer.position = [(1, 0)] ∧
      ((0, 1) : Coord) ≠ (1, 0) := by
  refine ⟨by decide, by decide, by decide⟩

/-! ### C7: out-of-bounds indexing -/

/-- A 5×5 board, all empty except a wall at `(4, 0)` (the last cell of the
first row, where a wrapped negative read will land). -/
def cb5 : CBoard := ⟨[
  [CEmpty, CEmpty, CEmpty, CEmpty, CWall 7],
  [CEmpty, CEmpty, CEmpty, CEmpty, CEmpty],
  [CEmpty, CEmpty, CEmpty, CEmpty, CEmpty],
  [CEmpty, CEmpty, CEmpty, CEmpty, CEmpty],
  [CEmpty, CEmpty, CEmpty, CEmpty, CEmpty]]⟩

/-- C7 — `get((99, 99))` on the 5×5 board does fail, but negative indices
are *not* signalled: `get((-1, 0))` silently wraps (Python list semantics)
and returns the occupant of `(4, 0)`, and `set((0, -1), …)` silently
writes, although `in_bounds` classifies both positions as out of bounds. -/
theorem claim_C7 :
    cb5.getItem (99, 99) = none ∧
      cb5.getItem (-1, 0) = some (CWall 7) ∧
      (cb5.setItem (0, -1) (CWall 9)).isSome = true ∧
      cb5.inBounds (-1, 0) = false ∧
      cb5.inBounds (0, -1) = false := by
  refine ⟨by decide, by decide, by decide, by decide, by decide⟩

/-! ### C8: text import/export round-trip -/

/-- Every element of a `splitOnP` chunk comes from the original list and
fails the split predicate. -/
theorem mem_splitOnP_chunk {α : Type} [DecidableEq α] (p : α → Bool) :
    ∀ (l : List α) (chunk : List α), chunk ∈ l.splitOnP p →
      ∀ c ∈ chunk, c ∈ l ∧ p c = false := by
  intro l
  induction l with
  | nil =>
    intro chunk hchunk c hc
    rw [List.splitOnP_nil] at hchunk
    simp at hchunk
    subst hchunk
    simp at hc
  | cons a t ih =>
    intro chunk hchunk c hc
    rw [List.splitOnP_cons] at hchunk
    by_cases ha : p a = true
    · rw [if_pos ha] at hchunk
      rcases List.mem_cons.mp hchunk with h1 | h1
      · subst h1; simp at hc
      · have := ih chunk h1 c hc
        exact ⟨List.mem_cons_of_mem a this.1, this.2⟩
    · rw [if_neg ha] at hchunk
      cases hsplit : t.splitOnP p with
      | nil => exact absurd hsplit (List.splitOnP_ne_nil p t)
      | cons hd tl =>
        rw [hsplit] at hchunk
        simp only [List.modifyHead] at hchunk
        rcases List.mem_cons.mp hchunk with h1 | h1
        · subst h1
          rcases List.mem_cons.mp hc with h2 | h2
          · subst h2
            exact ⟨List.mem_cons_self c t, by simpa using ha⟩
          · have hhd : hd ∈ t.splitOnP p := by rw [hsplit]; exact List.mem_cons_self hd tl
            have := ih hd hhd c h2
            exact ⟨List.mem_cons_of_mem a this.1, this.2⟩
        · have hmem : chunk ∈ t.splitOnP p := by
            rw [hsplit]; exact List.mem_cons_of_mem hd h1
          have := ih chunk hmem c hc
          exact ⟨List.mem_cons_of_mem a this.1, this.2⟩

/-- Loading one line succeeds when every character matches exactly one
registered class, and the loaded occupants display those characters. -/
theorem lineLoad (registry : List CObj) :
    ∀ (line : List Char),
      (∀ c ∈ line,
        (registry.filter
          (fun q => q.displayChar == String.singleton c)).length = 1) →
      ∃ objs, line.mapM (fun c => getObjectForChar registry c) = Except.ok objs ∧
        (objs.map (fun o => o.displayChar.toList)).flatten = line := by
  intro line
  induction line with
  | nil => intro _; exact ⟨[], rfl, rfl⟩
  | cons c cs ih =>
    intro h
    obtain ⟨objs, hobjs, hdisp⟩ := ih (fun d hd => h d (List.mem_cons_of_mem c hd))
    have hc := h c (List.mem_cons_self c cs)
    cases hm : registry.filter (fun q => q.displayChar == String.singleton c) with
    | nil => rw [hm] at hc; simp at hc
    | cons proto rest =>
      cases rest with
      | cons proto' rest' =>
        rw [hm] at hc
        simp only [List.length_cons] at hc
        omega
      | nil =>
        have hget : getObjectForChar registry c = Except.ok proto := by
          unfold getObjectForChar
          rw [hm]
        have hpm : proto ∈ registry.filter
            (fun q => q.displayChar == String.singleton c) := by
          rw [hm]; exact List.mem_cons_self proto []
        have hpd : proto.displayChar = String.singleton c :=
          eq_of_beq (List.mem_filter.mp hpm).2
        refine ⟨proto :: objs, ?_, ?_⟩
        · rw [List.mapM_cons, hget, hobjs]
          rfl
        · simp only [List.map_cons, List.flatten_cons, hdisp, hpd]
          rfl

/-- Loading a list of lines succeeds under the same condition, and the
saved display matrix reassembles every line. -/
theorem rowsLoad (registry : List CObj) :
    ∀ (lines : List (List Char)),
      (∀ line ∈ lines, ∀ c ∈ line,
        (registry.filter
          (fun q => q.displayChar == String.singleton c)).length = 1) →
      ∃ rows, lines.mapM
          (fun line => line.mapM (fun c => getObjectForChar registry c))
          = Except.ok rows ∧
        rows.map (fun row => (row.map (fun o => o.displayChar.toList)).flatten)
          = lines := by
  intro lines
  induction lines with
  | nil => intro _; exact ⟨[], rfl, rfl⟩
  | cons line rest ih =>
    intro h
    obtain ⟨objs, hobjs, hdisp⟩ := lineLoad registry line
      (h line (List.mem_cons_self line rest))
    obtain ⟨rows, hrows, hrowsd⟩ := ih (fun l hl => h l (List.mem_cons_of_mem line hl))
    refine ⟨objs :: rows, ?_, ?_⟩
    · rw [List.mapM_cons, hobjs, hrows]
      rfl
    · simp only [List.map_cons, hdisp, hrowsd]

theorem mapDisplayFlatten (rs : List (List CObj)) :
    (rs.map (fun row => row.map (fun o => o.displayChar))).map
        (fun row => (row.map (fun g => g.toList)).flatten)
      = rs.map (fun row => (row.map (fun o => o.displayChar.toList)).flatten) := by
  induction rs with
  | nil => rfl
  | cons r t ih =>
    simp only [List.map_cons, List.map_map, ih]
    rfl

/-- C8 (amended) — for every text whose non-newline characters each match
exactly one registered class, `load_state` succeeds and `save_state`
returns the matrix of glyphs; joining each row and separating rows by
newlines reproduces the input text exactly.  (`save_state` returns a list
of rows of glyph strings, not a text.) -/
theorem claim_C8 (registry : List CObj) (text : List Char)
    (h : ∀ c ∈ text, c ≠ '\n' →
      (registry.filter
        (fun q => q.displayChar == String.singleton c)).length = 1) :
    ∃ b : CBoard, loadState registry text = Except.ok b ∧
      List.intercalate ['\n']
        ((saveState b).map (fun row => (row.map (fun g => g.toList)).flatten))
        = text := by
  have hlines : ∀ line ∈ text.splitOn '\n', ∀ c ∈ line,
      (registry.filter
        (fun q => q.displayChar == String.singleton c)).length = 1 := by
    intro line hline c hc
    have hmem : c ∈ text ∧ (c == '\n') = false := by
      have := mem_splitOnP_chunk (fun a => a == '\n') text line ?_ c hc
      · exact this
      · simpa [List.splitOn] using hline
    exact h c hmem.1 (by simpa using hmem.2)
  obtain ⟨rows, hrows, hdisp⟩ := rowsLoad registry (text.splitOn '\n') hlines
  refine ⟨⟨rows⟩, ?_, ?_⟩
  · unfold loadState
    rw [hrows]
    rfl
  · show List.intercalate ['\n']
      ((rows.map (fun row => row.map (fun o => o.displayChar))).map
        (fun row => (row.map (fun g => g.toList)).flatten)) = text
    rw [mapDisplayFlatten rows, hdisp]
    exact List.intercalate_splitOn text '\n'

/-- Witness: the registered text `"#@\nO#"` loads and reassembles. -/
theorem claim_C8_witness :
    ∃ b : CBoard, loadState coreRegistry ("#@\nO#".toList) = Except.ok b ∧
      List.intercalate ['\n']
        ((saveState b).map (fun row => (row.map (fun g => g.toList)).flatten))
        = "#@\nO#".toList :=
  claim_C8 coreRegistry ("#@\nO#".toList) (by decide)

deriving instance DecidableEq for Except

/-- Counterexample to C8 as stated: the specification's own example text
`"#.\n.@\n"` does not round-trip — it does not even load, because in the
core object model `Empty` registers the glyph `"[]"`, so `'.'` is an
unknown display character. -/
theorem claim_C8_counterexample :
    loadState coreRegistry ("#.\n.@\n".toList)
      = Except.error (LoadErr.unknownChar '.') := by decide

end GribCore

namespace GridPath

/-!
### `Grid.pathfind` (build/lib/grib/core/grid.py): A* with uniform cost

The claim fixes the defaults: `cost_fn` uniform 1, `diagonal=False` (so the
four cardinal directions and the Manhattan heuristic), and an arbitrary
traversability predicate (`can_traverse ∘ self[·]`, modelled as a predicate
on positions).  Grid positions are `(row, col)` pairs of signed integers.

The priority queue is modelled as the multiset of its entries: `heapq`
always pops the least entry in the lexicographic order on
`(f_score, counter, position)`, and since every pushed entry carries a
fresh counter the order never reaches the position component, so `popMin`
selects the least `(f_score, counter)` entry.  Python dicts are association
lists with unique keys.  The `while` loop is run on fuel; the main theorem
produces a sufficient fuel and the result is fuel-monotone.
-/

abbrev Pos : Type := Int × Int

structure PGrid : Type where
  height : Nat
  width : Nat
deriving DecidableEq

/-- `Grid.in_bounds((row, col))`. -/
def PGrid.inBounds (g : PGrid) (p : Pos) : Bool :=
  if ¬ (0 ≤ p.1 ∧ p.1 < (g.height : Int)) then false
  else if ¬ (0 ≤ p.2 ∧ p.2 < (g.width : Int)) then false
  else true

/-- The four cardinal offsets, in source order. -/
def pdirs : List Pos := [(0, 1), (0, -1), (1, 0), (-1, 0)]

/-- `get_neighbors(pos)`: offset positions filtered by bounds. -/
def PGrid.neighborsOf (g : PGrid) (p : Pos) : List Pos :=
  (pdirs.map (fun d => (p.1 + d.1, p.2 + d.2))).filter (fun q => g.inBounds q)

/-- `Grid.manhattan_distance`. -/
def manhattanD (p q : Pos) : Nat :=
  (p.1 - q.1).natAbs + (q.2 - p.2).natAbs

/-- A priority-queue entry `(f_score, counter, position)`. -/
abbrev Entry : Type := Nat × Nat × Pos

/-- Lexicographic comparison on `(f_score, counter)` (counters are unique,
so `heapq` never compares positions). -/
def entryLeB (a b : Entry) : Bool :=
  decide (a.1 < b.1 ∨ (a.1 = b.1 ∧ a.2.1 ≤ b.2.1))

/-- `heapq.heappop`: remove the least entry. -/
def popMin : List Entry → Option (Entry × List Entry)
  | [] => none
  | e :: rest =>
    match popMin rest with
    | none => some (e, [])
    | some (m, rest') =>
      if entryLeB e m then some (e, rest) else some (m, e :: rest')

/-- Python dict lookup on an association list with unique keys. -/
def alookup {κ ν : Type} [DecidableEq κ] (m : List (κ × ν)) (k : κ) : Option ν :=
  match m with
  | [] => none
  | e :: rest => if e.1 = k then some e.2 else alookup rest k

/-- Python dict assignment. -/
def aset {κ ν : Type} [DecidableEq κ] (m : List (κ × ν)) (k : κ) (v : ν) :
    List (κ × ν) :=
  match m with
  | [] => [(k, v)]
  | e :: rest =>
    if e.1 = k then (k, v) :: rest else e :: aset rest k v

/-- The loop state: the queue, the push counter, `came_from` and
`g_score`. -/
structure AState : Type where
  queue : List Entry
  counter : Nat
  cameFrom : List (Pos × Option Pos)
  gScore : List (Pos × Nat)

/-- The update half of the relaxation: record the parent, lower `g_score`
to `tentative = g_score[current] + 1`, and push
`(tentative + h(neighbor), fresh counter, neighbor)`. -/
def pushUpd (st : AState) (current endP nb : Pos) : AState :=
  { queue := st.queue ++
      [((alookup st.gScore current).getD 0 + 1 + manhattanD nb endP,
        st.counter + 1, nb)]
    counter := st.counter + 1
    cameFrom := aset st.cameFrom nb (some current)
    gScore := aset st.gScore nb ((alookup st.gScore current).getD 0 + 1) }

/-- The body of the neighbor loop: skip non-traversable cells, otherwise
relax `g_score[current] + 1` against the neighbor. -/
def relax (trav : Pos → Bool) (endP current : Pos) (st : AState) (nb : Pos) :
    AState :=
  if ¬ trav nb then st
  else
    match alookup st.gScore nb with
    | none => pushUpd st current endP nb
    | some old =>
      if (alookup st.gScore current).getD 0 + 1 < old then
        pushUpd st current endP nb
      else st

/-- One expansion: relax every in-bounds neighbor of the popped node. -/
def expand (g : PGrid) (trav : Pos → Bool) (endP current : Pos) (st : AState) :
    AState :=
  (g.neighborsOf current).foldl (relax trav endP current) st

/-- The reconstruction loop `while current is not None`, on fuel (the
parent chain strictly decreases `g_score`, so `g_score[end] + 1` steps
always suffice; exhaustion models non-termination and never occurs in
reachable states). -/
def reconstructRev (cf : List (Pos × Option Pos)) : Nat → Pos → Option (List Pos)
  | 0, _ => none
  | fuel + 1, cur =>
    match alookup cf cur with
    | none => none
    | some none => some [cur]
    | some (some prev) =>
      match reconstructRev cf fuel prev with
      | none => none
      | some l => some (cur :: l)

/-- The main `while priority_queue:` loop, on fuel (`none` = out of
fuel). -/
def astarLoop (g : PGrid) (trav : Pos → Bool) (endP : Pos) :
    Nat → AState → Option (Option (List Pos × Nat))
  | 0, _ => none
  | fuel + 1, st =>
    match popMin st.queue with
    | none => some none
    | some (m, rest) =>
      if m.2.2 = endP then
        match alookup st.gScore m.2.2 with
        | none => none
        | some cost =>
          match reconstructRev st.cameFrom (cost + 1) m.2.2 with
          | none => none
          | some revPath => some (some (revPath.reverse, cost))
      else astarLoop g trav endP fuel (expand g trav endP m.2.2 { st with queue := rest })

/-- `came_from = {start: None}`, `g_score = {start: 0}`, initial entry
`(0, 0, start)`. -/
def initState (start : Pos) : AState :=
  ⟨[(0, 0, start)], 0, [(start, none)], [(start, 0)]⟩

/-- `Grid.pathfind(start, end)` with the claim's defaults. -/
def pathfind (g : PGrid) (trav : Pos → Bool) (start endP : Pos) (fuel : Nat) :
    Option (Option (List Pos × Nat)) :=
  astarLoop g trav endP fuel (initState start)

/-! The comparator from the claim: BFS shortest-path length. -/

/-- One BFS step: an in-bounds, traversable neighbor. -/
def Step (g : PGrid) (trav : Pos → Bool) (u v : Pos) : Prop :=
  v ∈ g.neighborsOf u ∧ trav v = true

/-- Reachability in exactly `n` steps. -/
def ReachN (g : PGrid) (trav : Pos → Bool) (s : Pos) : Nat → Pos → Prop
  | 0, v => v = s
  | n + 1, v => ∃ u, ReachN g trav s n u ∧ Step g trav u v

open Classical in
/-- The BFS shortest-path length (number of edges), `none` when
unreachable. -/
noncomputable def bfsDist (g : PGrid) (trav : Pos → Bool) (s e : Pos) :
    Option Nat :=
  if h : ∃ n, ReachN g trav s n e then some (Nat.find h) else none

/-! ### Association list lemmas -/

section AList

variable {κ ν : Type} [DecidableEq κ]

theorem alookup_aset_self (m : List (κ × ν)) (k : κ) (v : ν) :
    alookup (aset m k v) k = some v := by
  induction m with
  | nil => simp [aset, alookup]
  | cons e rest ih =>
    by_cases h : e.1 = k
    · simp [aset, h, alookup]
    · simp [aset, h, alookup, ih]

theorem alookup_aset_ne (m : List (κ × ν)) (k k' : κ) (v : ν) (h : k' ≠ k) :
    alookup (aset m k v) k' = alookup m k' := by
  induction m with
  | nil => simp [aset, alookup, Ne.symm h]
  | cons e rest ih =>
    by_cases he : e.1 = k
    · simp only [aset, if_pos he, alookup]
      have h1 : ¬ k = k' := fun hh => h hh.symm
      have h2 : ¬ e.1 = k' := by rw [he]; exact h1
      rw [if_neg h1, if_neg h2]
    · simp only [aset, if_neg he, alookup, ih]

theorem alookup_eq_none_iff (m : List (κ × ν)) (k : κ) :
    alookup m k = none ↔ k ∉ m.map Prod.fst := by
  induction m with
  | nil => simp [alookup]
  | cons e rest ih =>
    by_cases h : e.1 = k
    · simp [alookup, h]
    · rw [List.map_cons]
      simp only [alookup, if_neg h, List.mem_cons, ih]
      constructor
      · intro hk hor
        rcases hor with h1 | h2
        · exact h h1.symm
        · exact hk h2
      · intro hk h2
        exact hk (Or.inr h2)

theorem aset_keys_present (m : List (κ × ν)) (k : κ) (v : ν)
    (h : (alookup m k).isSome) :
    (aset m k v).map Prod.fst = m.map Prod.fst := by
  induction m with
  | nil => simp [alookup] at h
  | cons e rest ih =>
    by_cases he : e.1 = k
    · simp [aset, he]
    · simp only [alookup, if_neg he] at h
      simp [aset, he, ih h]

theorem aset_keys_absent (m : List (κ × ν)) (k : κ) (v : ν)
    (h : alookup m k = none) :
    (aset m k v).map Prod.fst = m.map Prod.fst ++ [k] := by
  induction m with
  | nil => simp [aset]
  | cons e rest ih =>
    by_cases he : e.1 = k
    · simp [alookup, he] at h
    · simp only [alookup, if_neg he] at h
      simp [aset, he, ih h]

theorem alookup_isSome_iff_mem (m : List (κ × ν)) (k : κ) :
    (alookup m k).isSome ↔ k ∈ m.map Prod.fst := by
  rcases h : alookup m k with _ | v
  · simpa [h] using (alookup_eq_none_iff m k).mp h
  · simp only [h, Option.isSome_some, true_iff]
    by_contra hk
    rw [← alookup_eq_none_iff] at hk
    rw [h] at hk
    exact absurd hk (by simp)

/-- Sum of the stored values. -/
def sumVals (m : List (κ × Nat)) : Nat := (m.map Prod.snd).sum

theorem sumVals_aset_present (m : List (κ × Nat)) (k : κ) (v old : Nat)
    (h : alookup m k = some old) :
    sumVals (aset m k v) + old = sumVals m + v := by
  induction m with
  | nil => simp [alookup] at h
  | cons e rest ih =>
    by_cases he : e.1 = k
    · simp only [alookup, if_pos he, Option.some.injEq] at h
      simp only [aset, if_pos he, sumVals, List.map_cons, List.sum_cons]
      omega
    · simp only [alookup, if_neg he] at h
      have hrec := ih h
      simp only [aset, if_neg he, sumVals, List.map_cons, List.sum_cons]
      simp only [sumVals] at hrec
      omega

theorem sumVals_aset_absent (m : List (κ × Nat)) (k : κ) (v : Nat)
    (h : alookup m k = none) :
    sumVals (aset m k v) = sumVals m + v := by
  induction m with
  | nil => simp [aset, sumVals]
  | cons e rest ih =>
    by_cases he : e.1 = k
    · simp [alookup, he] at h
    · simp only [alookup, if_neg he] at h
      have hrec := ih h
      simp only [aset, if_neg he, sumVals, List.map_cons, List.sum_cons]
      simp only [sumVals] at hrec
      omega

end AList

/-! ### popMin lemmas -/

theorem popMin_eq_none_iff (q : List Entry) : popMin q = none ↔ q = [] := by
  cases q with
  | nil => simp [popMin]
  | cons e rest =>
    simp only [popMin]
    rcases h : popMin rest with _ | ⟨m, rest'⟩
    · simp
    · by_cases hle : entryLeB e m = true <;> simp [hle]

theorem popMin_perm (q : List Entry) :
    ∀ m rest, popMin q = some (m, rest) → q.Perm (m :: rest) := by
  induction q with
  | nil => intro m rest h; simp [popMin] at h
  | cons e tl ih =>
    intro m rest h
    simp only [popMin] at h
    rcases htl : popMin tl with _ | ⟨m', rest'⟩
    · simp only [htl] at h
      have htl' : tl = [] := (popMin_eq_none_iff tl).mp htl
      subst htl'
      simp only [Option.some.injEq, Prod.mk.injEq] at h
      rw [← h.1, ← h.2]
    · simp only [htl] at h
      have hperm : tl.Perm (m' :: rest') := ih m' rest' htl
      by_cases hle : entryLeB e m' = true
      · rw [if_pos hle] at h
        simp only [Option.some.injEq, Prod.mk.injEq] at h
        rw [← h.1, ← h.2]
      · rw [if_neg hle] at h
        simp only [Option.some.injEq, Prod.mk.injEq] at h
        rw [← h.1, ← h.2]
        exact (hperm.cons e).trans (List.Perm.swap m' e rest')

theorem popMin_min_f (q : List Entry) :
    ∀ m rest, popMin q = some (m, rest) → ∀ e ∈ q, m.1 ≤ e.1 := by
  induction q with
  | nil => intro m rest h; simp [popMin] at h
  | cons a tl ih =>
    intro m rest h e he
    simp only [popMin] at h
    rcases htl : popMin tl with _ | ⟨m', rest'⟩
    · simp only [htl] at h
      have htl' : tl = [] := (popMin_eq_none_iff tl).mp htl
      subst htl'
      simp only [Option.some.injEq, Prod.mk.injEq] at h
      have hm : m = a := h.1.symm
      have he' : e = a := by simpa using he
      rw [hm, he']
    · simp only [htl] at h
      have hmin' : ∀ x ∈ tl, m'.1 ≤ x.1 := ih m' rest' htl
      by_cases hle : entryLeB a m' = true
      · rw [if_pos hle] at h
        simp only [Option.some.injEq, Prod.mk.injEq] at h
        have hm : m = a := h.1.symm
        have ham : a.1 ≤ m'.1 := by
          simp only [entryLeB, decide_eq_true_eq] at hle
          rcases hle with h2 | h2
          · exact Nat.le_of_lt h2
          · exact Nat.le_of_eq h2.1
        rw [hm]
        rcases List.mem_cons.mp he with h2 | h2
        · rw [h2]
        · exact le_trans ham (hmin' e h2)
      · rw [if_neg hle] at h
        simp only [Option.some.injEq, Prod.mk.injEq] at h
        have hm : m = m' := h.1.symm
        have hma : m'.1 ≤ a.1 := by
          simp only [entryLeB, decide_eq_true_eq, not_or] at hle
          exact Nat.le_of_not_lt hle.1
        rw [hm]
        rcases List.mem_cons.mp he with h2 | h2
        · rw [h2]; exact hma
        · exact hmin' e h2

/-! ### Reachability and shortest-distance lemmas -/

theorem manhattanD_self (p : Pos) : manhattanD p p = 0 := by
  simp only [manhattanD]
  omega

theorem neighborsOf_offset {g : PGrid} {u v : Pos} (h : v ∈ g.neighborsOf u) :
    (∃ d ∈ pdirs, v = (u.1 + d.1, u.2 + d.2)) ∧ g.inBounds v = true := by
  unfold PGrid.neighborsOf at h
  have h1 := List.mem_filter.mp h
  obtain ⟨d, hd, hv⟩ := List.mem_map.mp h1.1
  exact ⟨⟨d, hd, hv.symm⟩, h1.2⟩

/-- Manhattan is consistent along BFS steps. -/
theorem manhattanD_consistent {g : PGrid} {trav : Pos → Bool} {u v e : Pos}
    (h : Step g trav u v) : manhattanD u e ≤ manhattanD v e + 1 := by
  obtain ⟨⟨d, hd, hv⟩, _⟩ := neighborsOf_offset h.1
  subst hv
  simp only [pdirs, List.mem_cons, List.not_mem_nil, or_false] at hd
  rcases hd with h1 | h1 | h1 | h1 <;> subst h1 <;> simp only [manhattanD] <;> omega

theorem reachN_succ {g : PGrid} {trav : Pos → Bool} {s : Pos} {n : Nat} {v : Pos} :
    ReachN g trav s (n + 1) v ↔ ∃ u, ReachN g trav s n u ∧ Step g trav u v :=
  Iff.rfl

theorem bfsDist_eq_some {g : PGrid} {trav : Pos → Bool} {s e : Pos} {d : Nat}
    (h : bfsDist g trav s e = some d) :
    ReachN g trav s d e ∧ ∀ m, ReachN g trav s m e → d ≤ m := by
  classical
  unfold bfsDist at h
  split at h
  · rename_i hex
    simp only [Option.some.injEq] at h
    subst h
    exact ⟨Nat.find_spec hex, fun m hm => Nat.find_le hm⟩
  · exact absurd h (by simp)

theorem bfsDist_of_reach {g : PGrid} {trav : Pos → Bool} {s e : Pos} {n : Nat}
    (h : ReachN g trav s n e) : ∃ d, bfsDist g trav s e = some d ∧ d ≤ n := by
  classical
  unfold bfsDist
  split
  · rename_i hex
    exact ⟨Nat.find hex, rfl, Nat.find_le h⟩
  · rename_i hex
    exact absurd ⟨n, h⟩ hex

theorem bfsDist_self (g : PGrid) (trav : Pos → Bool) (s : Pos) :
    bfsDist g trav s s = some 0 := by
  obtain ⟨d, hd, hle⟩ := @bfsDist_of_reach g trav s s 0 rfl
  rw [hd]
  simp only [Option.some.injEq]
  omega

theorem bfsDist_eq_none {g : PGrid} {trav : Pos → Bool} {s e : Pos}
    (h : ∀ n, ¬ ReachN g trav s n e) : bfsDist g trav s e = none := by
  classical
  unfold bfsDist
  split
  · rename_i hex
    exact absurd (Nat.find_spec hex) (h _)
  · rfl

theorem bfsDist_step {g : PGrid} {trav : Pos → Bool} {s u v : Pos} {a : Nat}
    (h : bfsDist g trav s u = some a) (hs : Step g trav u v) :
    ∃ b, bfsDist g trav s v = some b ∧ b ≤ a + 1 := by
  have hr : ReachN g trav s (a + 1) v := ⟨u, (bfsDist_eq_some h).1, hs⟩
  exact bfsDist_of_reach hr

/-- Extract an explicit chain from reachability. -/
theorem reach_chain {g : PGrid} {trav : Pos → Bool} {s : Pos} :
    ∀ {n : Nat} {e : Pos}, ReachN g trav s n e →
      ∃ f : Nat → Pos, f 0 = s ∧ f n = e ∧
        ∀ i, i < n → Step g trav (f i) (f (i + 1)) := by
  intro n
  induction n with
  | zero =>
    intro e h
    cases h
    exact ⟨fun _ => s, rfl, rfl, fun i hi => absurd hi (by omega)⟩
  | succ n ih =>
    intro e h
    obtain ⟨u, hu, hs⟩ := h
    obtain ⟨f, hf0, hfn, hstep⟩ := ih hu
    refine ⟨fun i => if i = n + 1 then e else f i, ?_, ?_, ?_⟩
    · simp [hf0]
    · simp
    · intro i hi
      by_cases hin : i = n
      · subst hin
        simp only [if_pos rfl, if_neg (by omega : ¬ i = i + 1)]
        rw [hfn]
        exact hs
      · have h1 : ¬ i = n + 1 := by omega
        have h2 : ¬ i + 1 = n + 1 := by omega
        simp only [if_neg h1, if_neg h2]
        exact hstep i (by omega)

/-- The chain prefix reaches its node in that many steps. -/
theorem chain_prefix_reach {g : PGrid} {trav : Pos → Bool} {s : Pos}
    {f : Nat → Pos} (hf0 : f 0 = s)
    (hstep : ∀ i, i < n → Step g trav (f i) (f (i + 1))) :
    ∀ i, i ≤ n → ReachN g trav s i (f i) := by
  intro i
  induction i with
  | zero => intro _; exact hf0.symm ▸ rfl
  | succ i ih =>
    intro hi
    exact ⟨f i, ih (by omega), hstep i (by omega)⟩

/-- Appending the chain suffix to any reach of an intermediate node. -/
theorem chain_suffix_reach {g : PGrid} {trav : Pos → Bool} {s : Pos}
    {f : Nat → Pos} {n : Nat}
    (hstep : ∀ i, i < n → Step g trav (f i) (f (i + 1))) :
    ∀ (j m i : Nat), i + j ≤ n → ReachN g trav s m (f i) →
      ReachN g trav s (m + j) (f (i + j)) := by
  intro j
  induction j with
  | zero => intro m i _ h; exact h
  | succ j ih =>
    intro m i hij h
    have hr := ih m i (by omega) h
    have hstep2 := hstep (i + j) (by omega)
    exact ⟨f (i + j), hr, by
      have : i + (j + 1) = (i + j) + 1 := by omega
      rw [this]
      exact hstep2⟩

/-- Along a shortest chain, every prefix is itself shortest. -/
theorem chain_prefix_optimal {g : PGrid} {trav : Pos → Bool} {s e : Pos}
    {d : Nat} {f : Nat → Pos} (hd : bfsDist g trav s e = some d)
    (hf0 : f 0 = s) (hfn : f d = e)
    (hstep : ∀ i, i < d → Step g trav (f i) (f (i + 1))) :
    ∀ i, i ≤ d → bfsDist g trav s (f i) = some i := by
  intro i hi
  have hreach : ReachN g trav s i (f i) := chain_prefix_reach hf0 hstep i hi
  obtain ⟨di, hdi, hdile⟩ := bfsDist_of_reach hreach
  have hrdi : ReachN g trav s di (f i) := (bfsDist_eq_some hdi).1
  have hsuffix : ReachN g trav s (di + (d - i)) (f (i + (d - i))) :=
    chain_suffix_reach hstep (d - i) di i (by omega) hrdi
  have hie : i + (d - i) = d := by omega
  rw [hie, hfn] at hsuffix
  have hmin := (bfsDist_eq_some hd).2 _ hsuffix
  have : di = i := by omega
  rw [hdi, this]

/-- Telescoped consistency: the heuristic from any chain node to the chain
end is bounded by the remaining length. -/
theorem chain_manhattan {g : PGrid} {trav : Pos → Bool} {f : Nat → Pos}
    {n : Nat} (hstep : ∀ i, i < n → Step g trav (f i) (f (i + 1))) :
    ∀ j i, i + j = n → manhattanD (f i) (f n) ≤ j := by
  intro j
  induction j with
  | zero =>
    intro i hij
    have : i = n := by omega
    subst this
    simp [manhattanD_self]
  | succ j ih =>
    intro i hij
    have h1 : manhattanD (f i) (f n) ≤ manhattanD (f (i + 1)) (f n) + 1 :=
      manhattanD_consistent (hstep i (by omega))
    have h2 := ih (i + 1) (by omega)
    omega

/-! ### The loop invariant -/

/-- Positions adjacent on the grid are distinct. -/
theorem neighborsOf_ne {g : PGrid} {u v : Pos} (h : v ∈ g.neighborsOf u) :
    v ≠ u := by
  obtain ⟨⟨d, hd, hv⟩, _⟩ := neighborsOf_offset h
  subst hv
  simp only [pdirs, List.mem_cons, List.not_mem_nil, or_false] at hd
  intro hvu
  rcases hd with h1 | h1 | h1 | h1 <;> subst h1 <;>
    · have h2 := congrArg Prod.fst hvu
      have h3 := congrArg Prod.snd hvu
      simp at h2 h3

/-- The invariant of the A* loop, at the top of each iteration. -/
structure Inv (g : PGrid) (trav : Pos → Bool) (start endP : Pos)
    (st : AState) : Prop where
  keysNodup : (st.gScore.map Prod.fst).Nodup
  gStart : alookup st.gScore start = some 0
  cfStart : alookup st.cameFrom start = some none
  domEq : ∀ v : Pos, (alookup st.cameFrom v).isSome ↔ (alookup st.gScore v).isSome
  gDist : ∀ v gv, alookup st.gScore v = some gv →
    ∃ dv, bfsDist g trav start v = some dv ∧ dv ≤ gv
  queueG : ∀ e ∈ st.queue, ∃ gv, alookup st.gScore e.2.2 = some gv ∧ gv ≤ e.1
  frontier : ∀ v gv, alookup st.gScore v = some gv →
    (∀ nb ∈ g.neighborsOf v, trav nb = true →
      ∃ gn, alookup st.gScore nb = some gn ∧ gn ≤ gv + 1) ∨
    (∃ f c, (f, c, v) ∈ st.queue ∧ f ≤ gv + manhattanD v endP)
  endEntry : (alookup st.gScore endP).isSome → ∃ e ∈ st.queue, e.2.2 = endP
  parent : ∀ v pv, alookup st.cameFrom v = some (some pv) →
    ∃ gv gp, alookup st.gScore v = some gv ∧ alookup st.gScore pv = some gp ∧
      gp < gv ∧ Step g trav pv v
  root : ∀ v, alookup st.cameFrom v = some none → v = start

theorem inv_init (g : PGrid) (trav : Pos → Bool) (start endP : Pos) :
    Inv g trav start endP (initState start) := by
  have hlook : ∀ v : Pos, alookup [(start, (0 : Nat))] v
      = if start = v then some 0 else none := by
    intro v
    simp [alookup, initState]
  have hlookcf : ∀ v : Pos, alookup [(start, (none : Option Pos))] v
      = if start = v then some none else none := by
    intro v
    simp [alookup, initState]
  refine ⟨?_, ?_, ?_, ?_, ?_, ?_, ?_, ?_, ?_, ?_⟩
  · simp [initState]
  · simp [initState, alookup]
  · simp [initState, alookup]
  · intro v
    show (alookup [(start, (none : Option Pos))] v).isSome
      ↔ (alookup [(start, (0 : Nat))] v).isSome
    rw [hlook v, hlookcf v]
    by_cases h : start = v <;> simp [h]
  · intro v gv h
    rw [show (initState start).gScore = [(start, 0)] from rfl, hlook v] at h
    by_cases hv : start = v
    · rw [if_pos hv] at h
      simp only [Option.some.injEq] at h
      subst hv
      exact ⟨0, bfsDist_self g trav start, by omega⟩
    · rw [if_neg hv] at h
      exact absurd h (by simp)
  · intro e he
    simp only [initState, List.mem_singleton] at he
    subst he
    exact ⟨0, by simp [alookup], le_refl _⟩
  · intro v gv h
    rw [show (initState start).gScore = [(start, 0)] from rfl, hlook v] at h
    by_cases hv : start = v
    · rw [if_pos hv] at h
      simp only [Option.some.injEq] at h
      subst hv
      refine Or.inr ⟨0, 0, ?_, by omega⟩
      simp [initState]
    · rw [if_neg hv] at h
      exact absurd h (by simp)
  · intro h
    refine ⟨(0, 0, start), by simp [initState], ?_⟩
    rw [show (initState start).gScore = [(start, 0)] from rfl, hlook endP] at h
    by_cases hv : start = endP
    · exact hv
    · rw [if_neg hv] at h
      simp at h
  · intro v pv h
    rw [show (initState start).cameFrom = [(start, none)] from rfl, hlookcf v] at h
    by_cases hv : start = v
    · rw [if_pos hv] at h
      simp at h
    · rw [if_neg hv] at h
      exact absurd h (by simp)
  · intro v h
    rw [show (initState start).cameFrom = [(start, none)] from rfl, hlookcf v] at h
    by_cases hv : start = v
    · exact hv.symm
    · rw [if_neg hv] at h
      exact absurd h (by simp)

/-- Invariant preservation and state facts for the update half of a
relaxation. -/
theorem inv_pushUpd {g : PGrid} {trav : Pos → Bool} {start endP : Pos}
    {st : AState} (hInv : Inv g trav start endP st) {current : Pos} {gcur : Nat}
    (hcur : alookup st.gScore current = some gcur) {nb : Pos}
    (hnbmem : nb ∈ g.neighborsOf current) (htrav : trav nb = true)
    (hcond : ∀ old, alookup st.gScore nb = some old → gcur + 1 < old) :
    Inv g trav start endP (pushUpd st current endP nb) ∧
    alookup (pushUpd st current endP nb).gScore current = some gcur ∧
    (∀ v gv, alookup st.gScore v = some gv →
      ∃ gv', alookup (pushUpd st current endP nb).gScore v = some gv' ∧ gv' ≤ gv) ∧
    (∀ e ∈ st.queue, e ∈ (pushUpd st current endP nb).queue) ∧
    (∃ gn, alookup (pushUpd st current endP nb).gScore nb = some gn ∧
      gn ≤ gcur + 1) := by
  have hne : nb ≠ current := neighborsOf_ne hnbmem
  have hnbstart : nb ≠ start := by
    intro hns
    have := hcond 0 (hns ▸ hInv.gStart)
    omega
  have hg' : (pushUpd st current endP nb).gScore
      = aset st.gScore nb (gcur + 1) := by
    simp [pushUpd, hcur]
  have hq' : (pushUpd st current endP nb).queue
      = st.queue ++ [(gcur + 1 + manhattanD nb endP, st.counter + 1, nb)] := by
    simp [pushUpd, hcur]
  have hcf' : (pushUpd st current endP nb).cameFrom
      = aset st.cameFrom nb (some current) := rfl
  have hlook : ∀ v : Pos, v ≠ nb →
      alookup (pushUpd st current endP nb).gScore v = alookup st.gScore v := by
    intro v hv
    rw [hg']
    exact alookup_aset_ne _ _ _ _ hv
  have hlooknb : alookup (pushUpd st current endP nb).gScore nb
      = some (gcur + 1) := by
    rw [hg']
    exact alookup_aset_self _ _ _
  have hcflook : ∀ v : Pos, v ≠ nb →
      alookup (pushUpd st current endP nb).cameFrom v
        = alookup st.cameFrom v := by
    intro v hv
    rw [hcf']
    exact alookup_aset_ne _ _ _ _ hv
  have hcflooknb : alookup (pushUpd st current endP nb).cameFrom nb
      = some (some current) := by
    rw [hcf']
    exact alookup_aset_self _ _ _
  have hstepnb : Step g trav current nb := ⟨hnbmem, htrav⟩
  refine ⟨⟨?_, ?_, ?_, ?_, ?_, ?_, ?_, ?_, ?_, ?_⟩, ?_, ?_, ?_, ?_⟩
  · -- keysNodup
    rw [hg']
    rcases hnb : alookup st.gScore nb with _ | old
    · rw [aset_keys_absent _ _ _ hnb]
      have hnotin : nb ∉ st.gScore.map Prod.fst :=
        (alookup_eq_none_iff _ _).mp hnb
      simp only [List.nodup_append, List.nodup_cons, List.not_mem_nil,
        not_false_iff, List.nodup_nil, and_true, true_and]
      constructor
      · exact hInv.keysNodup
      · intro a ha hb
        simp only [List.mem_singleton] at hb
        subst hb
        exact hnotin ha
    · rw [aset_keys_present _ _ _ (by simp [hnb])]
      exact hInv.keysNodup
  · -- gStart
    rw [hlook start (Ne.symm hnbstart)]
    exact hInv.gStart
  · -- cfStart
    rw [hcflook start (Ne.symm hnbstart)]
    exact hInv.cfStart
  · -- domEq
    intro v
    by_cases hv : v = nb
    · subst hv
      rw [hlooknb, hcflooknb]
      simp
    · rw [hlook v hv, hcflook v hv]
      exact hInv.domEq v
  · -- gDist
    intro v gv h
    by_cases hv : v = nb
    · subst hv
      rw [hlooknb] at h
      simp only [Option.some.injEq] at h
      subst h
      obtain ⟨dc, hdc, hdcle⟩ := hInv.gDist current gcur hcur
      obtain ⟨db, hdb, hdble⟩ := bfsDist_step hdc hstepnb
      exact ⟨db, hdb, by omega⟩
    · rw [hlook v hv] at h
      exact hInv.gDist v gv h
  · -- queueG
    intro e he
    rw [hq'] at he
    rcases List.mem_append.mp he with he | he
    · obtain ⟨gv, hl, hle⟩ := hInv.queueG e he
      by_cases hv : e.2.2 = nb
      · rw [hv] at hl
        have := hcond gv hl
        refine ⟨gcur + 1, ?_, by omega⟩
        rw [hv, hlooknb]
      · exact ⟨gv, by rw [hlook _ hv]; exact hl, hle⟩
    · simp only [List.mem_singleton] at he
      subst he
      exact ⟨gcur + 1, hlooknb, by omega⟩
  · -- frontier
    intro v gv h
    by_cases hv : v = nb
    · rw [hv] at h ⊢
      rw [hlooknb] at h
      simp only [Option.some.injEq] at h
      subst h
      refine Or.inr ⟨gcur + 1 + manhattanD nb endP, st.counter + 1, ?_, le_refl _⟩
      rw [hq']
      exact List.mem_append_right _ (List.mem_singleton_self _)
    · rw [hlook v hv] at h
      rcases hInv.frontier v gv h with hleft | hright
      · refine Or.inl ?_
        intro nb2 hnb2 htrav2
        obtain ⟨gn, hgn, hgnle⟩ := hleft nb2 hnb2 htrav2
        by_cases hv2 : nb2 = nb
        · subst hv2
          have := hcond gn hgn
          exact ⟨gcur + 1, hlooknb, by omega⟩
        · exact ⟨gn, by rw [hlook _ hv2]; exact hgn, hgnle⟩
      · obtain ⟨f, c, hmem, hle⟩ := hright
        refine Or.inr ⟨f, c, ?_, hle⟩
        rw [hq']
        exact List.mem_append_left _ hmem
  · -- endEntry
    intro h
    by_cases hv : endP = nb
    · refine ⟨(gcur + 1 + manhattanD nb endP, st.counter + 1, nb), ?_, hv.symm⟩
      rw [hq']
      exact List.mem_append_right _ (List.mem_singleton_self _)
    · rw [hlook endP hv] at h
      obtain ⟨e, he, hepos⟩ := hInv.endEntry h
      refine ⟨e, ?_, hepos⟩
      rw [hq']
      exact List.mem_append_left _ he
  · -- parent
    intro v pv h
    by_cases hv : v = nb
    · subst hv
      rw [hcflooknb] at h
      simp only [Option.some.injEq] at h
      subst h
      exact ⟨gcur + 1, gcur, hlooknb, by rw [hlook current (Ne.symm hne)]; exact hcur,
        by omega, hstepnb⟩
    · rw [hcflook v hv] at h
      obtain ⟨gv, gp, h1, h2, hlt, hstep⟩ := hInv.parent v pv h
      by_cases hp : pv = nb
      · subst hp
        have := hcond gp h2
        exact ⟨gv, gcur + 1, by rw [hlook v hv]; exact h1, hlooknb,
          by omega, hstep⟩
      · exact ⟨gv, gp, by rw [hlook v hv]; exact h1,
          by rw [hlook pv hp]; exact h2, hlt, hstep⟩
  · -- root
    intro v h
    by_cases hv : v = nb
    · subst hv
      rw [hcflooknb] at h
      simp at h
    · rw [hcflook v hv] at h
      exact hInv.root v h
  · -- current lookup preserved
    rw [hlook current (Ne.symm hne)]
    exact hcur
  · -- pointwise non-increase
    intro v gv h
    by_cases hv : v = nb
    · subst hv
      have := hcond gv h
      exact ⟨gcur + 1, hlooknb, by omega⟩
    · exact ⟨gv, by rw [hlook v hv]; exact h, le_refl _⟩
  · -- queue grows
    intro e he
    rw [hq']
    exact List.mem_append_left _ he
  · -- the relaxed neighbor is bounded
    exact ⟨gcur + 1, hlooknb, le_refl _⟩

/-- Invariant preservation and state facts for one relaxation. -/
theorem inv_relax {g : PGrid} {trav : Pos → Bool} {start endP : Pos}
    {st : AState} (hInv : Inv g trav start endP st) {current : Pos} {gcur : Nat}
    (hcur : alookup st.gScore current = some gcur) {nb : Pos}
    (hnbmem : nb ∈ g.neighborsOf current) :
    Inv g trav start endP (relax trav endP current st nb) ∧
    alookup (relax trav endP current st nb).gScore current = some gcur ∧
    (∀ v gv, alookup st.gScore v = some gv →
      ∃ gv', alookup (relax trav endP current st nb).gScore v = some gv' ∧
        gv' ≤ gv) ∧
    (∀ e ∈ st.queue, e ∈ (relax trav endP current st nb).queue) ∧
    (trav nb = true →
      ∃ gn, alookup (relax trav endP current st nb).gScore nb = some gn ∧
        gn ≤ gcur + 1) := by
  by_cases htrav : trav nb = true
  · rcases hnb : alookup st.gScore nb with _ | old
    · have hrw : relax trav endP current st nb = pushUpd st current endP nb := by
        unfold relax
        rw [if_neg (by simp [htrav])]
        simp only [hnb]
      have hcond : ∀ o, alookup st.gScore nb = some o → gcur + 1 < o := by
        intro o ho
        rw [hnb] at ho
        exact absurd ho (by simp)
      obtain ⟨h1, h2, h3, h4, h5⟩ := inv_pushUpd hInv hcur hnbmem htrav hcond
      rw [hrw]
      exact ⟨h1, h2, h3, h4, fun _ => h5⟩
    · by_cases hlt : gcur + 1 < old
      · have hrw : relax trav endP current st nb = pushUpd st current endP nb := by
          unfold relax
          rw [if_neg (by simp [htrav])]
          simp only [hnb]
          rw [if_pos (by rw [hcur]; simpa using hlt)]
        have hcond : ∀ o, alookup st.gScore nb = some o → gcur + 1 < o := by
          intro o ho
          rw [hnb] at ho
          simp only [Option.some.injEq] at ho
          omega
        obtain ⟨h1, h2, h3, h4, h5⟩ := inv_pushUpd hInv hcur hnbmem htrav hcond
        rw [hrw]
        exact ⟨h1, h2, h3, h4, fun _ => h5⟩
      · have hrw : relax trav endP current st nb = st := by
          unfold relax
          rw [if_neg (by simp [htrav])]
          simp only [hnb]
          rw [if_neg (by rw [hcur]; simpa using hlt)]
        rw [hrw]
        refine ⟨hInv, hcur, fun v gv h => ⟨gv, h, le_refl _⟩,
          fun e he => he, fun _ => ⟨old, hnb, by omega⟩⟩
  · have hrw : relax trav endP current st nb = st := by
      unfold relax
      rw [if_pos htrav]
    rw [hrw]
    exact ⟨hInv, hcur, fun v gv h => ⟨gv, h, le_refl _⟩,
      fun e he => he, fun h => absurd h htrav⟩

/-- Invariant preservation along the whole neighbor fold. -/
theorem inv_foldRelax {g : PGrid} {trav : Pos → Bool} {start endP current : Pos}
    {gcur : Nat} :
    ∀ (todo : List Pos) (st : AState), Inv g trav start endP st →
      alookup st.gScore current = some gcur →
      (∀ nb ∈ todo, nb ∈ g.neighborsOf current) →
      Inv g trav start endP (todo.foldl (relax trav endP current) st) ∧
      alookup (todo.foldl (relax trav endP current) st).gScore current
        = some gcur ∧
      (∀ v gv, alookup st.gScore v = some gv →
        ∃ gv', alookup (todo.foldl (relax trav endP current) st).gScore v
          = some gv' ∧ gv' ≤ gv) ∧
      (∀ e ∈ st.queue, e ∈ (todo.foldl (relax trav endP current) st).queue) ∧
      (∀ nb ∈ todo, trav nb = true →
        ∃ gn, alookup (todo.foldl (relax trav endP current) st).gScore nb
          = some gn ∧ gn ≤ gcur + 1) := by
  intro todo
  induction todo with
  | nil =>
    intro st hInv hcur _
    exact ⟨hInv, hcur, fun v gv h => ⟨gv, h, le_refl _⟩, fun e he => he,
      fun nb h => absurd h (List.not_mem_nil nb)⟩
  | cons nb rest ih =>
    intro st hInv hcur hmem
    obtain ⟨h1, h2, h3, h4, h5⟩ :=
      inv_relax hInv hcur (hmem nb (List.mem_cons_self nb rest))
    obtain ⟨g1, g2, g3, g4, g5⟩ :=
      ih (relax trav endP current st nb) h1 h2
        (fun x hx => hmem x (List.mem_cons_of_mem nb hx))
    rw [List.foldl_cons]
    refine ⟨g1, g2, ?_, ?_, ?_⟩
    · intro v gv h
      obtain ⟨gv1, hgv1, hle1⟩ := h3 v gv h
      obtain ⟨gv2, hgv2, hle2⟩ := g3 v gv1 hgv1
      exact ⟨gv2, hgv2, by omega⟩
    · intro e he
      exact g4 e (h4 e he)
    · intro x hx htravx
      rcases List.mem_cons.mp hx with hx1 | hx1
      · subst hx1
        obtain ⟨gn, hgn, hgnle⟩ := h5 htravx
        obtain ⟨gn2, hgn2, hle2⟩ := g3 x gn hgn
        exact ⟨gn2, hgn2, by omega⟩
      · exact g5 x hx1 htravx

/-- Invariant preservation and state facts for a full expansion. -/
theorem inv_expand {g : PGrid} {trav : Pos → Bool} {start endP : Pos}
    {st : AState} (hInv : Inv g trav start endP st) {current : Pos} {gcur : Nat}
    (hcur : alookup st.gScore current = some gcur) :
    Inv g trav start endP (expand g trav endP current st) ∧
    alookup (expand g trav endP current st).gScore current = some gcur ∧
    (∀ v gv, alookup st.gScore v = some gv →
      ∃ gv', alookup (expand g trav endP current st).gScore v = some gv' ∧
        gv' ≤ gv) ∧
    (∀ e ∈ st.queue, e ∈ (expand g trav endP current st).queue) ∧
    (∀ nb ∈ g.neighborsOf current, trav nb = true →
      ∃ gn, alookup (expand g trav endP current st).gScore nb = some gn ∧
        gn ≤ gcur + 1) :=
  inv_foldRelax (g.neighborsOf current) st hInv hcur (fun _ hx => hx)

theorem aset_length_present {κ ν : Type} [DecidableEq κ]
    (m : List (κ × ν)) (k : κ) (v : ν) (h : (alookup m k).isSome) :
    (aset m k v).length = m.length := by
  induction m with
  | nil => simp [alookup] at h
  | cons e rest ih =>
    by_cases he : e.1 = k
    · simp [aset, he]
    · simp only [alookup, if_neg he] at h
      simp [aset, he, ih h]

theorem aset_length_absent {κ ν : Type} [DecidableEq κ]
    (m : List (κ × ν)) (k : κ) (v : ν) (h : alookup m k = none) :
    (aset m k v).length = m.length + 1 := by
  induction m with
  | nil => simp [aset]
  | cons e rest ih =>
    by_cases he : e.1 = k
    · simp [alookup, he] at h
    · simp only [alookup, if_neg he] at h
      simp [aset, he, ih h]

/-- The neighbor fold never reads the queue: its `g_score`, `came_from`
and counter do not depend on it, it only appends entries, and any append
comes with strict progress in `(dom size, Σ g)`. -/
theorem foldRelax_queue_indep {trav : Pos → Bool} {endP current : Pos} :
    ∀ (todo : List Pos) (core : AState),
      ∃ (extra : List Entry) (cnt : Nat) (cf : List (Pos × Option Pos))
        (gs : List (Pos × Nat)),
        (∀ q : List Entry,
          todo.foldl (relax trav endP current) { core with queue := q }
            = ⟨q ++ extra, cnt, cf, gs⟩) ∧
        ((extra = [] ∧ gs = core.gScore ∧ cf = core.cameFrom ∧
            cnt = core.counter) ∨
          core.gScore.length < gs.length ∨
          (gs.length = core.gScore.length ∧
            sumVals gs < sumVals core.gScore)) := by
  intro todo
  induction todo with
  | nil =>
    intro core
    refine ⟨[], core.counter, core.cameFrom, core.gScore, ?_, Or.inl ⟨rfl, rfl, rfl, rfl⟩⟩
    intro q
    simp
  | cons nb rest ih =>
    intro core
    by_cases htrav : trav nb = true
    · rcases hnb : alookup core.gScore nb with _ | old
      · -- absent: push
        have hrw : ∀ q : List Entry,
            relax trav endP current { core with queue := q } nb
              = { pushUpd core current endP nb with
                  queue := q ++ [((alookup core.gScore current).getD 0 + 1
                    + manhattanD nb endP, core.counter + 1, nb)] } := by
          intro q
          unfold relax
          rw [if_neg (by simp [htrav])]
          show (match alookup core.gScore nb with
            | none => pushUpd { core with queue := q } current endP nb
            | some old =>
              if (alookup core.gScore current).getD 0 + 1 < old then
                pushUpd { core with queue := q } current endP nb
              else { core with queue := q }) = _
          simp only [hnb]
          simp [pushUpd]
        obtain ⟨extra, cnt, cf, gs, hall, hprog⟩ :=
          ih (pushUpd core current endP nb)
        refine ⟨((alookup core.gScore current).getD 0 + 1
            + manhattanD nb endP, core.counter + 1, nb) :: extra,
          cnt, cf, gs, ?_, ?_⟩
        · intro q
          rw [List.foldl_cons, hrw q]
          have := hall (q ++ [((alookup core.gScore current).getD 0 + 1
            + manhattanD nb endP, core.counter + 1, nb)])
          rw [this]
          simp
        · have hlen : (pushUpd core current endP nb).gScore.length
              = core.gScore.length + 1 := by
            show (aset core.gScore nb _).length = _
            exact aset_length_absent _ _ _ hnb
          rcases hprog with ⟨_, hgs, _, _⟩ | hlt | ⟨heq, _⟩
          · refine Or.inr (Or.inl ?_)
            rw [hgs, hlen]
            omega
          · refine Or.inr (Or.inl ?_)
            rw [hlen] at hlt
            omega
          · refine Or.inr (Or.inl ?_)
            rw [heq, hlen]
            omega
      · by_cases hlt : (alookup core.gScore current).getD 0 + 1 < old
        · -- update: push
          have hrw : ∀ q : List Entry,
              relax trav endP current { core with queue := q } nb
                = { pushUpd core current endP nb with
                    queue := q ++ [((alookup core.gScore current).getD 0 + 1
                      + manhattanD nb endP, core.counter + 1, nb)] } := by
            intro q
            unfold relax
            rw [if_neg (by simp [htrav])]
            show (match alookup core.gScore nb with
              | none => pushUpd { core with queue := q } current endP nb
              | some old =>
                if (alookup core.gScore current).getD 0 + 1 < old then
                  pushUpd { core with queue := q } current endP nb
                else { core with queue := q }) = _
            simp only [hnb]
            rw [if_pos hlt]
            simp [pushUpd]
          obtain ⟨extra, cnt, cf, gs, hall, hprog⟩ :=
            ih (pushUpd core current endP nb)
          refine ⟨((alookup core.gScore current).getD 0 + 1
              + manhattanD nb endP, core.counter + 1, nb) :: extra,
            cnt, cf, gs, ?_, ?_⟩
          · intro q
            rw [List.foldl_cons, hrw q]
            have := hall (q ++ [((alookup core.gScore current).getD 0 + 1
              + manhattanD nb endP, core.counter + 1, nb)])
            rw [this]
            simp
          · have hlen : (pushUpd core current endP nb).gScore.length
                = core.gScore.length := by
              show (aset core.gScore nb _).length = _
              exact aset_length_present _ _ _ (by simp [hnb])
            have hsum : sumVals (pushUpd core current endP nb).gScore + old
                = sumVals core.gScore
                  + ((alookup core.gScore current).getD 0 + 1) := by
              show sumVals (aset core.gScore nb _) + old = _
              exact sumVals_aset_present _ _ _ _ hnb
            rcases hprog with ⟨_, hgs, _, _⟩ | hlt2 | ⟨heq, hs⟩
            · refine Or.inr (Or.inr ⟨?_, ?_⟩)
              · rw [hgs, hlen]
              · rw [hgs]
                omega
            · refine Or.inr (Or.inl ?_)
              rw [hlen] at hlt2
              omega
            · refine Or.inr (Or.inr ⟨?_, ?_⟩)
              · rw [heq, hlen]
              · rw [hlen] at heq
                omega
        · -- skip
          have hrw : ∀ q : List Entry,
              relax trav endP current { core with queue := q } nb
                = { core with queue := q } := by
            intro q
            unfold relax
            rw [if_neg (by simp [htrav])]
            show (match alookup core.gScore nb with
              | none => pushUpd { core with queue := q } current endP nb
              | some old =>
                if (alookup core.gScore current).getD 0 + 1 < old then
                  pushUpd { core with queue := q } current endP nb
                else { core with queue := q }) = _
            simp only [hnb]
            rw [if_neg hlt]
          obtain ⟨extra, cnt, cf, gs, hall, hprog⟩ := ih core
          refine ⟨extra, cnt, cf, gs, ?_, hprog⟩
          intro q
          rw [List.foldl_cons, hrw q, hall q]
    · have hrw : ∀ q : List Entry,
          relax trav endP current { core with queue := q } nb
            = { core with queue := q } := by
        intro q
        unfold relax
        rw [if_pos htrav]
      obtain ⟨extra, cnt, cf, gs, hall, hprog⟩ := ih core
      refine ⟨extra, cnt, cf, gs, ?_, hprog⟩
      intro q
      rw [List.foldl_cons, hrw q, hall q]

/-- The invariant survives one full loop iteration: popping the minimal
entry (not the goal) and expanding its node. -/
theorem inv_step {g : PGrid} {trav : Pos → Bool} {start endP : Pos}
    {st : AState} (hInv : Inv g trav start endP st) {m : Entry}
    {rest : List Entry} (hpop : popMin st.queue = some (m, rest))
    (hne : m.2.2 ≠ endP) :
    Inv g trav start endP (expand g trav endP m.2.2 { st with queue := rest }) := by
  have hperm := popMin_perm st.queue m rest hpop
  have hmmem : m ∈ st.queue := hperm.mem_iff.mpr (List.mem_cons_self _ _)
  obtain ⟨gcur, hgcur, hgfle⟩ := hInv.queueG m hmmem
  obtain ⟨extra, cnt, cf, gs, hall, _⟩ :=
    @foldRelax_queue_indep trav endP m.2.2 (g.neighborsOf m.2.2) st
  have hst2eq : expand g trav endP m.2.2 st
      = ⟨st.queue ++ extra, cnt, cf, gs⟩ := hall st.queue
  have hst3eq : expand g trav endP m.2.2 { st with queue := rest }
      = ⟨rest ++ extra, cnt, cf, gs⟩ := hall rest
  obtain ⟨hInv2, hcur2, hmono2, hqsub2, hnbs2⟩ := inv_expand hInv hgcur
  rw [hst2eq] at hInv2 hcur2 hmono2 hqsub2 hnbs2
  rw [hst3eq]
  refine ⟨hInv2.keysNodup, hInv2.gStart, hInv2.cfStart, hInv2.domEq,
    hInv2.gDist, ?_, ?_, ?_, hInv2.parent, hInv2.root⟩
  · -- queueG
    intro e he
    rcases List.mem_append.mp he with he1 | he1
    · have : e ∈ st.queue := hperm.mem_iff.mpr (List.mem_cons_of_mem m he1)
      exact hInv2.queueG e (List.mem_append_left extra this)
    · exact hInv2.queueG e (List.mem_append_right st.queue he1)
  · -- frontier
    intro v gv h
    rcases hInv2.frontier v gv h with hleft | ⟨f, c, hin, hle⟩
    · exact Or.inl hleft
    · rcases List.mem_append.mp hin with hin1 | hin2
      · by_cases hvcur : v = m.2.2
        · subst hvcur
          have hgveq : gv = gcur := by
            rw [hcur2] at h
            exact (Option.some.injEq _ _ ▸ h).symm
          refine Or.inl ?_
          intro nb hnb htravnb
          obtain ⟨gn, hgn, hgnle⟩ := hnbs2 nb hnb htravnb
          exact ⟨gn, hgn, by omega⟩
        · refine Or.inr ⟨f, c, ?_, hle⟩
          have hfm : (f, c, v) ≠ m := by
            intro hh
            exact hvcur (by rw [← hh])
          have hmem2 : (f, c, v) ∈ m :: rest := hperm.mem_iff.mp hin1
          rcases List.mem_cons.mp hmem2 with h2 | h2
          · exact absurd h2 hfm
          · exact List.mem_append_left extra h2
      · exact Or.inr ⟨f, c, List.mem_append_right rest hin2, hle⟩
  · -- endEntry
    intro h
    obtain ⟨e, he, hee⟩ := hInv2.endEntry h
    rcases List.mem_append.mp he with he1 | he1
    · have hmem2 : e ∈ m :: rest := hperm.mem_iff.mp he1
      rcases List.mem_cons.mp hmem2 with h2 | h2
      · subst h2
        exact absurd hee hne
      · exact ⟨e, List.mem_append_left extra h2, hee⟩
    · exact ⟨e, List.mem_append_right rest he1, hee⟩

/-! ### Termination: the score domain lives in a finite set -/

theorem reach_inBounds {g : PGrid} {trav : Pos → Bool} {start : Pos} {n : Nat}
    {v : Pos} (h : ReachN g trav start n v) :
    v = start ∨ g.inBounds v = true := by
  cases n with
  | zero => exact Or.inl h
  | succ n =>
    obtain ⟨u, _, hstep⟩ := h
    exact Or.inr (neighborsOf_offset hstep.1).2

/-- Every position that can carry a `g_score` (the start or an in-bounds
cell). -/
def allowedSet (g : PGrid) (start : Pos) : Finset Pos :=
  insert start
    (((Finset.range g.height) ×ˢ (Finset.range g.width)).image
      (fun rc => ((rc.1 : Int), (rc.2 : Int))))

theorem inBounds_mem_allowedSet {g : PGrid} {start v : Pos}
    (h : g.inBounds v = true) : v ∈ allowedSet g start := by
  unfold PGrid.inBounds at h
  by_cases h1 : 0 ≤ v.1 ∧ v.1 < (g.height : Int)
  · by_cases h2 : 0 ≤ v.2 ∧ v.2 < (g.width : Int)
    · refine Finset.mem_insert_of_mem ?_
      refine Finset.mem_image.mpr ⟨(v.1.toNat, v.2.toNat), ?_, ?_⟩
      · refine Finset.mem_product.mpr ⟨?_, ?_⟩
        · simp only [Finset.mem_range]
          omega
        · simp only [Finset.mem_range]
          omega
      · have e1 : ((v.1.toNat : Int)) = v.1 := Int.toNat_of_nonneg h1.1
        have e2 : ((v.2.toNat : Int)) = v.2 := Int.toNat_of_nonneg h2.1
        exact Prod.ext e1 e2
    · rw [if_neg (by simpa using h1), if_pos h2] at h
      exact absurd h (by simp)
  · rw [if_pos h1] at h
    exact absurd h (by simp)

theorem dom_mem_allowedSet {g : PGrid} {trav : Pos → Bool} {start endP : Pos}
    {st : AState} (hInv : Inv g trav start endP st) {v : Pos} {gv : Nat}
    (h : alookup st.gScore v = some gv) : v ∈ allowedSet g start := by
  obtain ⟨dv, hdv, _⟩ := hInv.gDist v gv h
  rcases reach_inBounds (bfsDist_eq_some hdv).1 with h1 | h1
  · rw [h1]
    exact Finset.mem_insert_self _ _
  · exact inBounds_mem_allowedSet h1

theorem nodup_length_le_card {α : Type} [DecidableEq α] (l : List α)
    (s : Finset α) (hnd : l.Nodup) (hsub : ∀ x ∈ l, x ∈ s) :
    l.length ≤ s.card := by
  have h1 : l.toFinset.card = l.length := List.toFinset_card_of_nodup hnd
  have h2 : l.toFinset ⊆ s := by
    intro x hx
    exact hsub x (List.mem_toFinset.mp hx)
  calc l.length = l.toFinset.card := h1.symm
    _ ≤ s.card := Finset.card_le_card h2

theorem gScore_length_le {g : PGrid} {trav : Pos → Bool} {start endP : Pos}
    {st : AState} (hInv : Inv g trav start endP st) :
    st.gScore.length ≤ (allowedSet g start).card := by
  have h1 : st.gScore.length = (st.gScore.map Prod.fst).length := by simp
  rw [h1]
  refine nodup_length_le_card _ _ hInv.keysNodup ?_
  intro x hx
  have hsome : (alookup st.gScore x).isSome :=
    (alookup_isSome_iff_mem _ _).mpr hx
  rcases hlook : alookup st.gScore x with _ | gv
  · rw [hlook] at hsome
    exact absurd hsome (by simp)
  · exact dom_mem_allowedSet hInv hlook

/-- Correctness of a loop result against the BFS comparator: `none` means
BFS finds no path either; a returned pair carries the BFS shortest-path
cost and a path of `cost + 1` nodes. -/
def ResOK (g : PGrid) (trav : Pos → Bool) (start endP : Pos) :
    Option (List Pos × Nat) → Prop
  | none => bfsDist g trav start endP = none
  | some pc => bfsDist g trav start endP = some pc.2 ∧
      pc.1.length = pc.2 + 1

/-- One full loop iteration strictly decreases the lexicographic measure
`(|allowed| + 1 − |dom g|, Σ g, |queue|)`. -/
theorem step_measure {g : PGrid} {trav : Pos → Bool} {start endP : Pos}
    {st : AState} {m : Entry} {rest : List Entry}
    (hpop : popMin st.queue = some (m, rest))
    (hInv2 : Inv g trav start endP
      (expand g trav endP m.2.2 { st with queue := rest })) :
    Prod.Lex (fun a b : Nat => a < b)
      (Prod.Lex (fun a b : Nat => a < b) (fun a b : Nat => a < b))
      ((allowedSet g start).card + 1
          - (expand g trav endP m.2.2 { st with queue := rest }).gScore.length,
        sumVals (expand g trav endP m.2.2 { st with queue := rest }).gScore,
        (expand g trav endP m.2.2 { st with queue := rest }).queue.length)
      ((allowedSet g start).card + 1 - st.gScore.length,
        sumVals st.gScore, st.queue.length) := by
  obtain ⟨extra, cnt, cf, gs, hall, hprog⟩ :=
    @foldRelax_queue_indep trav endP m.2.2 (g.neighborsOf m.2.2) st
  have hsteq : expand g trav endP m.2.2 { st with queue := rest }
      = ⟨rest ++ extra, cnt, cf, gs⟩ := hall rest
  have hperm := popMin_perm st.queue m rest hpop
  have hqlen : st.queue.length = rest.length + 1 := by
    have := hperm.length_eq
    simpa using this
  rw [hsteq] at hInv2 ⊢
  have hgsbound : gs.length ≤ (allowedSet g start).card := gScore_length_le hInv2
  rcases hprog with ⟨hextra, hgs, _, _⟩ | hlt | ⟨heq, hsum⟩
  · subst hextra
    subst hgs
    have h3 : (rest ++ ([] : List Entry)).length < st.queue.length := by
      simp [hqlen]
    exact Prod.Lex.right _ (Prod.Lex.right _ h3)
  · have h1 : (allowedSet g start).card + 1 - gs.length
        < (allowedSet g start).card + 1 - st.gScore.length := by omega
    exact Prod.Lex.left _ _ h1
  · have h1 : (allowedSet g start).card + 1 - gs.length
        = (allowedSet g start).card + 1 - st.gScore.length := by omega
    rw [h1]
    exact Prod.Lex.right _ (Prod.Lex.left _ _ hsum)

/-- Under the invariant, `reconstruct_path` run from any scored node
terminates within `g_score + 1` steps and returns a reversed path: it
starts at the node, ends at `start`, and witnesses reachability in
`length − 1` steps with `length ≤ g_score + 1`. -/
theorem reconstruct_ok {g : PGrid} {trav : Pos → Bool} {start endP : Pos}
    {st : AState} (hInv : Inv g trav start endP st) :
    ∀ gv (v : Pos), alookup st.gScore v = some gv →
      ∀ fuel, gv < fuel →
      ∃ l, reconstructRev st.cameFrom fuel v = some l ∧
        l.head? = some v ∧ 1 ≤ l.length ∧ l.length ≤ gv + 1 ∧
        ReachN g trav start (l.length - 1) v := by
  intro gv
  induction gv using Nat.strong_induction_on with
  | _ gv IH =>
    intro v hv fuel hfuel
    have hcfs : (alookup st.cameFrom v).isSome :=
      (hInv.domEq v).mpr (by simp [hv])
    rcases hcfv : alookup st.cameFrom v with _ | pv
    · rw [hcfv] at hcfs
      exact absurd hcfs (by simp)
    cases pv with
    | none =>
      have hvs : v = start := hInv.root v hcfv
      cases fuel with
      | zero => omega
      | succ f =>
        refine ⟨[v], ?_, rfl, by simp, by simp, ?_⟩
        · simp [reconstructRev, hcfv]
        · show ReachN g trav start ([v].length - 1) v
          simp only [List.length_singleton]
          exact hvs
    | some pv =>
      obtain ⟨gv', gp, hgv', hgp, hlt, hstep⟩ := hInv.parent v pv hcfv
      have hgveq : gv' = gv := by
        rw [hv] at hgv'
        exact (Option.some.injEq _ _ ▸ hgv').symm
      subst hgveq
      cases fuel with
      | zero => omega
      | succ f =>
        obtain ⟨l', hrec', hhead', hlen1', hlenle', hreach'⟩ :=
          IH gp hlt pv hgp f (by omega)
        refine ⟨v :: l', ?_, rfl, by simp, ?_, ?_⟩
        · simp [reconstructRev, hcfv, hrec']
        · simp only [List.length_cons]
          omega
        · show ReachN g trav start ((v :: l').length - 1) v
          have hl : (v :: l').length - 1 = (l'.length - 1) + 1 := by
            simp only [List.length_cons]
            omega
          rw [hl]
          exact ⟨pv, hreach', hstep⟩

/-- When the queue empties, the scored set is closed under steps, so the
end is unreachable. -/
theorem final_none {g : PGrid} {trav : Pos → Bool} {start endP : Pos}
    {st : AState} (hInv : Inv g trav start endP st) (hq : st.queue = []) :
    bfsDist g trav start endP = none := by
  have hdom : ∀ n (v : Pos), ReachN g trav start n v →
      (alookup st.gScore v).isSome := by
    intro n
    induction n with
    | zero =>
      intro v h
      have hvs : v = start := h
      subst hvs
      simp [hInv.gStart]
    | succ n ih =>
      intro v h
      obtain ⟨u, hu, hstep⟩ := h
      have hus := ih u hu
      rcases hlu : alookup st.gScore u with _ | gu
      · rw [hlu] at hus
        exact absurd hus (by simp)
      · rcases hInv.frontier u gu hlu with hleft | ⟨f, c, hin, _⟩
        · obtain ⟨gn, hgn, _⟩ := hleft v hstep.1 hstep.2
          simp [hgn]
        · rw [hq] at hin
          exact absurd hin (by simp)
  refine bfsDist_eq_none ?_
  intro n hr
  obtain ⟨e, he, _⟩ := hInv.endEntry (hdom n endP hr)
  rw [hq] at he
  exact absurd he (by simp)

/-- Popping the goal is correct: the stored `g_score[end]` equals the BFS
distance (the heap minimum bounds it below via the admissible heuristic),
and reconstruction yields a path of `g_score[end] + 1` nodes. -/
theorem final_goal {g : PGrid} {trav : Pos → Bool} {start endP : Pos}
    {st : AState} {m : Entry} {rest : List Entry}
    (hInv : Inv g trav start endP st)
    (hpop : popMin st.queue = some (m, rest)) (hmeq : m.2.2 = endP) :
    ∃ res, astarLoop g trav endP 1 st = some res ∧
      ResOK g trav start endP res := by
  subst hmeq
  have hperm := popMin_perm st.queue m rest hpop
  have hmmem : m ∈ st.queue := hperm.mem_iff.mpr (List.mem_cons_self _ _)
  obtain ⟨ge, hge, hgef⟩ := hInv.queueG m hmmem
  obtain ⟨dv, hdv, hdvle⟩ := hInv.gDist m.2.2 ge hge
  obtain ⟨f, hf0, hfd, hstepf⟩ := reach_chain (bfsDist_eq_some hdv).1
  have hP0 : alookup st.gScore (f 0) = some 0 := by
    rw [hf0]
    exact hInv.gStart
  have claim : ∀ k i, i + k = dv → alookup st.gScore (f i) = some i →
      ge ≤ dv := by
    intro k
    induction k with
    | zero =>
      intro i hik hPi
      have hieq : i = dv := by omega
      subst hieq
      rw [hfd, hge] at hPi
      injection hPi with hPi'
      omega
    | succ k ih =>
      intro i hik hPi
      have hilt : i < dv := by omega
      rcases hInv.frontier (f i) i hPi with hleft | ⟨fw, cw, hw, hwle⟩
      · have hstepi := hstepf i hilt
        obtain ⟨gn, hgn, hgnle⟩ := hleft (f (i + 1)) hstepi.1 hstepi.2
        have hopt := chain_prefix_optimal hdv hf0 hfd hstepf (i + 1) (by omega)
        obtain ⟨dn, hdn, hdnle⟩ := hInv.gDist (f (i + 1)) gn hgn
        rw [hopt] at hdn
        injection hdn with hdn'
        have hgneq : gn = i + 1 := by omega
        rw [hgneq] at hgn
        exact ih (i + 1) (by omega) hgn
      · have hman : manhattanD (f i) (f dv) ≤ dv - i :=
          chain_manhattan hstepf (dv - i) i (by omega)
        rw [← hfd] at hwle
        have hmf := popMin_min_f st.queue m rest hpop (fw, cw, f i) hw
        omega
  have hgedv : ge ≤ dv := claim dv 0 (by omega) hP0
  have hgeq : ge = dv := by omega
  obtain ⟨l, hrec, hhead, hlen1, hlenle, hreach⟩ :=
    reconstruct_ok hInv ge m.2.2 hge (ge + 1) (by omega)
  obtain ⟨d2, hd2, hd2le⟩ := bfsDist_of_reach hreach
  have hd2eq : d2 = dv := by
    rw [hdv] at hd2
    injection hd2 with hd2'
    omega
  have hleneq : l.length = ge + 1 := by omega
  refine ⟨some (l.reverse, ge), ?_, ?_, ?_⟩
  · show astarLoop g trav m.2.2 1 st = some (some (l.reverse, ge))
    simp only [astarLoop, hpop, if_true]
    simp only [hge, hrec]
  · show bfsDist g trav start m.2.2 = some ge
    rw [hgeq]
    exact hdv
  · show l.reverse.length = ge + 1
    simp [hleneq]

/-- From any invariant state the loop terminates with a BFS-correct
result, for some fuel. -/
theorem run_exists {g : PGrid} {trav : Pos → Bool} {start endP : Pos} :
    ∀ st, Inv g trav start endP st →
      ∃ fuel res, astarLoop g trav endP fuel st = some res ∧
        ResOK g trav start endP res := by
  intro st0 hInv0
  have hwf : WellFounded (Prod.Lex (fun a b : Nat => a < b)
      (Prod.Lex (fun a b : Nat => a < b) (fun a b : Nat => a < b))) :=
    (Nat.lt_wfRel.wf).prod_lex ((Nat.lt_wfRel.wf).prod_lex Nat.lt_wfRel.wf)
  refine hwf.induction
    (C := fun mv => ∀ st, Inv g trav start endP st →
      ((allowedSet g start).card + 1 - st.gScore.length, sumVals st.gScore,
        st.queue.length) = mv →
      ∃ fuel res, astarLoop g trav endP fuel st = some res ∧
        ResOK g trav start endP res)
    ((allowedSet g start).card + 1 - st0.gScore.length, sumVals st0.gScore,
      st0.queue.length) ?_ st0 hInv0 rfl
  intro mv IH st hInv hmeas
  rcases hpopc : popMin st.queue with _ | ⟨m, rest⟩
  · have hq : st.queue = [] := (popMin_eq_none_iff _).mp hpopc
    refine ⟨1, none, ?_, final_none hInv hq⟩
    show astarLoop g trav endP 1 st = some none
    simp only [astarLoop, hpopc]
  · by_cases hme : m.2.2 = endP
    · obtain ⟨res, hres, hok⟩ := final_goal hInv hpopc hme
      exact ⟨1, res, hres, hok⟩
    · have hInv2 := inv_step hInv hpopc hme
      have hdec := step_measure hpopc hInv2
      subst hmeas
      obtain ⟨fuel, res, hrun, hok⟩ := IH _ hdec _ hInv2 rfl
      refine ⟨fuel + 1, res, ?_, hok⟩
      show astarLoop g trav endP (fuel + 1) st = some res
      simp only [astarLoop, hpopc]
      rw [if_neg hme]
      exact hrun

/-- **C9.** With uniform cost 1 and `diagonal=False` (so the Manhattan
heuristic), for every grid, traversability predicate, start and goal,
`pathfind` terminates (for some fuel, the loop being fuel-monotone in the
embedding) and returns `None` exactly when BFS finds no path; when a path
exists it returns the pair of a path with `cost + 1` nodes and the cost
`cost`, where `cost` is the BFS shortest-path length (number of steps)
from start to goal. -/
theorem claim_C9 (g : PGrid) (trav : Pos → Bool) (start endP : Pos) :
    ∃ fuel res, pathfind g trav start endP fuel = some res ∧
      (res = none ↔ bfsDist g trav start endP = none) ∧
      (∀ path cost, res = some (path, cost) →
        bfsDist g trav start endP = some cost ∧ path.length = cost + 1) := by
  obtain ⟨fuel, res, hrun, hok⟩ :=
    run_exists (initState start) (inv_init g trav start endP)
  refine ⟨fuel, res, hrun, ⟨?_, ?_⟩, ?_⟩
  · intro h
    subst h
    exact hok
  · intro h
    rcases res with _ | pc
    · rfl
    · have h1 := hok.1
      rw [h] at h1
      exact absurd h1 (by simp)
  · intro path cost hres
    subst hres
    exact hok

end GridPath
